import Mathlib

/-!
Verification of the chain-database storage engine (`full_sqlite.rs`).

This file is a shallow embedding of the SQLite-backed chain database:
each SQL table becomes a list of row structures, each public operation a
Lean function translated statement-by-statement from the Rust/SQL source.
Recursive SQL common-table-expressions become fuel-bounded recursive
functions (the source acknowledges that its recursive queries can loop
forever on cyclic data, so a fuel parameter returning `none` on
exhaustion models the query faithfully); transactions that roll back on
error become functions returning `Except`, wrapped in `Option` where the
Rust can panic (`unwrap`, `assert!`) or the query can fail to terminate.

SQLite semantics used throughout (verified against SQLite 3.40):
`SUBSTR(x, i)` of an *empty* blob is NULL, of a non-empty blob past its
end is the empty blob; blob comparison is memcmp with a proper prefix
sorting first; `x IS NULL` over an aggregate of zero rows evaluates the
bare column as NULL.
-/

set_option maxRecDepth 10000

/-- Raw bytes (also nibble sequences): one `Nat` per byte. -/
abbrev Bytes := List Nat

/-- Row of `trie_node(hash BLOB PRIMARY KEY, partial_key BLOB)`. -/
structure TrieNodeRow where
  hash : Bytes
  partialKey : Bytes
deriving DecidableEq

/-- Row of `trie_node_child(hash, child_num BLOB(1), child_hash, PRIMARY KEY(hash, child_num))`. -/
structure ChildRow where
  hash : Bytes
  childNum : Nat
  childHash : Bytes
deriving DecidableEq

/-- Row of `trie_node_storage(node_hash PRIMARY KEY, value, trie_root_ref, trie_entry_version)`. -/
structure StorageRow where
  nodeHash : Bytes
  value : Option Bytes
  trieRootRef : Option Bytes
  trieEntryVersion : Nat
deriving DecidableEq

/-- Row of `blocks(hash, parent_hash, state_trie_root_hash, number, header, is_best_chain,
justification)`.  `is_best_chain` is an `Option Bool`: the SQL column is a nullable
boolean and the best-chain reassignment statement can in fact store NULL into it. -/
structure BlockRow where
  hash : Bytes
  parentHash : Option Bytes
  stateTrieRoot : Option Bytes
  number : Nat
  header : Bytes
  isBestChain : Option Bool
  justification : Option Bytes
deriving DecidableEq

/-- Row of `blocks_body(hash, idx, extrinsic, PRIMARY KEY(hash, idx))`. -/
structure BodyRow where
  hash : Bytes
  idx : Nat
  extrinsic : Bytes
deriving DecidableEq

/-- Decoded BABE epoch information as stored (encoded) under the meta keys
`babe_finalized_epoch` / `babe_finalized_next_epoch`.  The SCALE-like byte
encoding itself (`encode_babe_epoch_information` / `decode_babe_epoch_information`)
is elided: the state stores the decoded structure directly. -/
structure BabeEpochInfo where
  epochIndex : Nat
  startSlotNumber : Option Nat
  authorities : List (Bytes × Nat)
  randomness : Bytes
  cNum : Nat
  cDen : Nat
  allowedSlots : Nat
deriving DecidableEq

/-- The whole database state: the tables of the schema plus the individual
`meta` rows the engine reads and writes (each meta key becomes a field). -/
structure DB where
  blocks : List BlockRow
  blocksBody : List BodyRow
  trieNode : List TrieNodeRow
  trieNodeChild : List ChildRow
  trieNodeStorage : List StorageRow
  metaBest : Option Bytes
  metaFinalized : Option Nat
  babeSlotsPerEpoch : Option Nat
  babeFinalizedEpoch : Option BabeEpochInfo
  babeFinalizedNextEpoch : Option BabeEpochInfo
  auraSlotDuration : Option Nat
  grandpaSetId : Option Nat
  grandpaScheduledTarget : Option Nat
  grandpaTriggered : List (Nat × Bytes × Nat)
  grandpaScheduled : List (Nat × Bytes × Nat)
  auraAuthorities : List (Nat × Bytes)
deriving DecidableEq

/-- `SELECT ... FROM blocks WHERE hash = ?` (hash is the primary key). -/
def findBlock (db : DB) (h : Bytes) : Option BlockRow :=
  db.blocks.find? fun b => b.hash = h

/-- `SELECT ... FROM trie_node WHERE hash = ?`. -/
def findTrieNode (db : DB) (h : Bytes) : Option TrieNodeRow :=
  db.trieNode.find? fun r => r.hash = h

/-- `SELECT ... FROM trie_node_child WHERE hash = ? AND child_num = ?`. -/
def findChild (db : DB) (h : Bytes) (n : Nat) : Option ChildRow :=
  db.trieNodeChild.find? fun r => r.hash = h ∧ r.childNum = n

/-- All child edges of a node, in table order. -/
def childRowsOf (db : DB) (h : Bytes) : List ChildRow :=
  db.trieNodeChild.filter fun r => r.hash = h

/-- `SELECT ... FROM trie_node_storage WHERE node_hash = ?`. -/
def findStorage (db : DB) (h : Bytes) : Option StorageRow :=
  db.trieNodeStorage.find? fun r => r.nodeHash = h

/-- `has_block`: `SELECT COUNT(*) FROM blocks WHERE hash = ?` compared with 0. -/
def hasBlock (db : DB) (h : Bytes) : Bool :=
  (findBlock db h).isSome

/-- `block_header`: `SELECT header FROM blocks WHERE hash = ?`. -/
def blockHeaderOf (db : DB) (h : Bytes) : Option Bytes :=
  (findBlock db h).map (·.header)

/-- `block_hashes_by_number`: `SELECT hash FROM blocks WHERE number = ?`, in table
order; a number that does not fit an `i64` yields the empty list. -/
def blockHashesByNumber (db : DB) (n : Nat) : List Bytes :=
  if n < 2 ^ 63 then (db.blocks.filter fun b => b.number = n).map (·.hash) else []

/-- The error taxonomy of the database (`CorruptedError`); payloads are dropped. -/
inductive CorruptedError where
  | InvalidNumber
  | InvalidFinalizedNum
  | InvalidBlockHashLen
  | InvalidTrieHashLen
  | BrokenChain
  | MissingMetaKey
  | MissingBlockHeader
  | BlockHeaderCorrupted
  | ConsensusAlgorithmMix
  | InvalidBabeEpochInformation
  | InvalidTrieEntryVersion
  | Internal
deriving DecidableEq

/-- `InsertError`. -/
inductive InsertError where
  | Corrupted (e : CorruptedError)
  | Duplicate
  | BadHeader
  | MissingParent
  | BestNotInFinalizedChain
deriving DecidableEq

/-- `SetFinalizedError`. -/
inductive SetFinalizedError where
  | Corrupted (e : CorruptedError)
  | UnknownBlock
  | RevertForbidden
deriving DecidableEq

/-- `StorageAccessError`. -/
inductive StorageAccessError where
  | Corrupted (e : CorruptedError)
  | IncompleteStorage
  | UnknownBlock
deriving DecidableEq

/-- `finalized_num`: `meta_get_number("finalized")`, `MissingMetaKey` when absent. -/
def finalizedNum (db : DB) : Except CorruptedError Nat :=
  match db.metaFinalized with
  | none => .error .MissingMetaKey
  | some n => .ok n

/-- Memcmp (SQLite blob) strict order on byte lists: a proper prefix sorts first. -/
def blobLt : Bytes → Bytes → Bool
  | [], [] => false
  | [], _ :: _ => true
  | _ :: _, [] => false
  | a :: as_, b :: bs => a < b || (a = b && blobLt as_ bs)

/-- Memcmp (SQLite blob) order, non-strict. -/
def blobLe (x y : Bytes) : Bool := blobLt x y || x = y

/-! ## Point lookup: `block_storage_get`

The recursive CTE `node_with_key` keeps, at every stage, exactly one live row
`(node_hash, search_remain)`; its `UNION ALL` step (all its joins are on
primary keys, so they produce at most one row) becomes the step function
`nwkStep`, iterated by `nwkRun` while `search_remain` is non-empty and
non-NULL. -/

/-- One step of the `node_with_key` recursion of `block_storage_get`, for a live
row whose `search_remain` is the non-empty `r` (`nh` is `node_hash`, possibly
NULL). Each `CASE` arm mirrors the SQL text. -/
def nwkStep (db : DB) (nh : Option Bytes) (r : Bytes) : Option Bytes × Option Bytes :=
  let child : Option ChildRow := nh.bind fun h => findChild db h (r.headI)
  let tn : Option TrieNodeRow := child.bind fun c => findTrieNode db c.childHash
  let st : Option StorageRow := nh.bind fun h => findStorage db h
  let node' : Option Bytes :=
    if r.headI = 16 then st.bind (·.trieRootRef)
    else match tn with
      | some row => if (r.drop 1).take row.partialKey.length = row.partialKey
          then child.map (·.childHash) else none
      | none => none
  let remain' : Option Bytes :=
    if r.headI = 16 then some r
    else match child with
      | none => some []
      | some _ => match tn with
        | none => none
        | some row => if (r.drop 1).take row.partialKey.length = row.partialKey
            then some (r.drop (1 + row.partialKey.length)) else some []
  (node', remain')

/-- The `node_with_key` recursion run to its terminal row: iterate `nwkStep`
while `search_remain` is non-empty and non-NULL.  The fuel models the
unbounded CTE recursion; with fuel exhausted the current (non-terminal) row is
returned and the caller reports `none` (the query would not have terminated yet). -/
def nwkRun (db : DB) : Nat → Option Bytes × Option Bytes → Option Bytes × Option Bytes
  | 0, s => s
  | _ + 1, (nh, none) => (nh, none)
  | _ + 1, (nh, some []) => (nh, some [])
  | fuel + 1, (nh, some (n :: r)) => nwkRun db fuel (nwkStep db nh (n :: r))

/-- The final `SELECT` of `block_storage_get` applied to the terminal row, and
the Rust post-processing: NULL `search_remain` is `IncompleteStorage`, the
value is `COALESCE(value, trie_root_ref)` of the node's storage row, and the
version must fit a `u8`.  A still-unfinished row (fuel ran out) is `none`. -/
def nwkFinish (db : DB) : Option Bytes × Option Bytes →
    Option (Except StorageAccessError (Option (Bytes × Nat)))
  | (_, none) => some (.error .IncompleteStorage)
  | (nh, some []) =>
    match nh.bind (findStorage db) with
    | none => some (.ok none)
    | some s =>
      match s.value.or s.trieRootRef with
      | none => some (.ok none)
      | some v =>
        if s.trieEntryVersion < 2 ^ 8 then some (.ok (some (v, s.trieEntryVersion)))
        else some (.error (.Corrupted .InvalidTrieEntryVersion))
  | (_, some (_ :: _)) => none

/-- `SqliteFullDatabase::block_storage_get`.  `parentTries` and `key` are the
two nibble iterators; the function panics (`none`) if either yields a value
`≥ 16`, concatenates them with `0x10` separators, and runs the recursive
query.  `none` also models a query that has not terminated within `fuel`. -/
def block_storage_get (db : DB) (fuel : Nat) (blockHash : Bytes)
    (parentTries : List Bytes) (key : Bytes) :
    Option (Except StorageAccessError (Option (Bytes × Nat))) :=
  if (∀ t ∈ parentTries, ∀ n ∈ t, n < 16) ∧ (∀ n ∈ key, n < 16) then
    let keyVectored : Bytes := (parentTries.map (· ++ [16])).flatten ++ key
    match findBlock db blockHash with
    | none => some (.error .UnknownBlock)
    | some b =>
      let init : Option Bytes × Option Bytes :=
        match b.stateTrieRoot.bind (findTrieNode db) with
        | none => (none, none)
        | some row =>
          (if keyVectored.take row.partialKey.length = row.partialKey then some row.hash
           else none,
           some (keyVectored.drop row.partialKey.length))
      nwkFinish db (nwkRun db fuel init)
  else none

/-! ## The specification-side trie denotation

`trieLookup db fuel root key` is the key-value map `M` a stored trie denotes,
written as the spec describes the lookup: starting at the root, consume each
node's partial key from the front of the remaining key (a mismatch means the
key is absent), descend through the child edge selected by the next nibble,
and return the storage value when the key is exhausted exactly at a node. -/

/-- Trie denotation below a node whose partial key was already consumed. -/
def trieLookupFrom (db : DB) : Nat → Bytes → Bytes → Option (Bytes × Nat)
  | _, h, [] => (findStorage db h).bind fun s => s.value.map fun v => (v, s.trieEntryVersion)
  | 0, _, _ :: _ => none
  | fuel + 1, h, n :: rest =>
    match findChild db h n with
    | none => none
    | some c =>
      match findTrieNode db c.childHash with
      | none => none
      | some row =>
        if rest.take row.partialKey.length = row.partialKey then
          trieLookupFrom db fuel c.childHash (rest.drop row.partialKey.length)
        else none

/-- Trie denotation from a root node: the map `M` of the stored trie. -/
def trieLookup (db : DB) (fuel : Nat) (h : Bytes) (key : Bytes) : Option (Bytes × Nat) :=
  match findTrieNode db h with
  | none => none
  | some row =>
    if key.take row.partialKey.length = row.partialKey then
      trieLookupFrom db fuel h (key.drop row.partialKey.length)
    else none

/-- Decidable bounded completeness: the node `h` and everything reachable from
it through child edges is present in `trie_node`, up to the given depth. -/
def completeFrom (db : DB) : Nat → Bytes → Bool
  | 0, _ => false
  | fuel + 1, h =>
    (findTrieNode db h).isSome &&
      (childRowsOf db h).all fun c => completeFrom db fuel c.childHash

/-- Storage-row sanity for a value-only trie: no `trie_root_ref` (so the trie has
no child-trie references) and every version fits a `u8`. -/
def storageOk (db : DB) : Prop :=
  ∀ s ∈ db.trieNodeStorage, s.trieRootRef = none ∧ s.trieEntryVersion < 2 ^ 8

/-! ## Correctness of the point lookup -/

/-- A found block row has the looked-up hash. -/
theorem findBlock_hash {db : DB} {h : Bytes} {b : BlockRow} (hf : findBlock db h = some b) :
    b.hash = h := by
  have := List.find?_some hf
  simpa using this

/-- A found trie-node row has the looked-up hash. -/
theorem findTrieNode_hash {db : DB} {h : Bytes} {row : TrieNodeRow}
    (hf : findTrieNode db h = some row) : row.hash = h := by
  have := List.find?_some hf
  simpa using this

/-- A found storage row is a row of the table. -/
theorem findStorage_mem {db : DB} {h : Bytes} {s : StorageRow}
    (hf : findStorage db h = some s) : s ∈ db.trieNodeStorage :=
  List.mem_of_find?_eq_some hf

/-- A found child edge is among the node's child edges. -/
theorem findChild_mem_childRows {db : DB} {h : Bytes} {n : Nat} {c : ChildRow}
    (hf : findChild db h n = some c) : c ∈ childRowsOf db h := by
  have hm := List.mem_of_find?_eq_some hf
  have hp := List.find?_some hf
  have : c.hash = h ∧ c.childNum = n := by simpa using hp
  exact List.mem_filter.mpr ⟨hm, by simpa using this.1⟩

/-- Bounded completeness is monotone in the depth bound. -/
theorem completeFrom_mono (db : DB) :
    ∀ {f f' : Nat} {h : Bytes}, f ≤ f' → completeFrom db f h = true →
      completeFrom db f' h = true := by
  intro f
  induction f with
  | zero => intro f' h _ hc; simp [completeFrom] at hc
  | succ f ih =>
    intro f' h hle hc
    obtain ⟨f', rfl⟩ : ∃ g, f' = g + 1 := ⟨f' - 1, by omega⟩
    simp only [completeFrom, Bool.and_eq_true, List.all_eq_true] at hc ⊢
    exact ⟨hc.1, fun c hcm => ih (by omega) (hc.2 c hcm)⟩

/-- Unfolding completeness one level: the node is present and each child is
completely present one level lower. -/
theorem completeFrom_succ {db : DB} {f : Nat} {h : Bytes}
    (hc : completeFrom db (f + 1) h = true) :
    (findTrieNode db h).isSome ∧
      ∀ c ∈ childRowsOf db h, completeFrom db f c.childHash = true := by
  simp only [completeFrom, Bool.and_eq_true, List.all_eq_true] at hc
  exact ⟨hc.1, fun c hcm => hc.2 c hcm⟩

/-- `trieLookupFrom` does not depend on the fuel once it covers the key length. -/
theorem trieLookupFrom_fuel (db : DB) :
    ∀ {f f' : Nat} {h rest : Bytes}, rest.length ≤ f → rest.length ≤ f' →
      trieLookupFrom db f h rest = trieLookupFrom db f' h rest := by
  intro f
  induction f with
  | zero =>
    intro f' h rest hf _
    cases rest with
    | nil => cases f' <;> rfl
    | cons n rest => simp at hf
  | succ f ih =>
    intro f' h rest hf hf'
    cases rest with
    | nil => cases f' <;> rfl
    | cons n rest =>
      obtain ⟨f', rfl⟩ : ∃ g, f' = g + 1 :=
        ⟨f' - 1, by simp only [List.length_cons] at hf'; omega⟩
      rcases hch : findChild db h n with _ | c
      · simp [trieLookupFrom, hch]
      · rcases htn : findTrieNode db c.childHash with _ | row
        · simp [trieLookupFrom, hch, htn]
        · by_cases hpk : rest.take row.partialKey.length = row.partialKey
          · simp only [trieLookupFrom, hch, htn, hpk, if_true]
            have hd : (rest.drop row.partialKey.length).length =
                rest.length - row.partialKey.length := by
              simp
            simp only [List.length_cons] at hf hf'
            refine ih ?_ ?_ <;> omega
          · simp [trieLookupFrom, hch, htn, hpk]

/-- `nwkRun` is already at a terminal row when the remaining key is empty. -/
theorem nwkRun_nil (db : DB) (fuel : Nat) (nh : Option Bytes) :
    nwkRun db fuel (nh, some []) = (nh, some []) := by
  cases fuel <;> rfl

/-- `nwkRun` is already at a terminal row when the remaining key is NULL. -/
theorem nwkRun_none (db : DB) (fuel : Nat) (nh : Option Bytes) :
    nwkRun db fuel (nh, none) = (nh, none) := by
  cases fuel <;> rfl

/-- The terminal-row post-processing at a node of a value-only well-formed store
returns exactly the storage value of that node. -/
theorem nwkFinish_value {db : DB} (hst : storageOk db) (h : Bytes) :
    nwkFinish db (some h, some []) =
      some (.ok ((findStorage db h).bind
        fun s => s.value.map fun v => (v, s.trieEntryVersion))) := by
  simp only [nwkFinish, Option.bind, Option.some_bind]
  rcases hfs : findStorage db h with _ | s
  · rfl
  · obtain ⟨href, hver⟩ := hst s (findStorage_mem hfs)
    rcases hv : s.value with _ | v
    · simp [hv, href, Option.or]
    · simp only [hv, href, Option.or]
      rw [if_pos hver]
      rfl

/-- One step of `node_with_key` at a present node with a non-`0x10` head nibble,
written out by cases on the child edge and the child's row. -/
theorem nwkStep_cases (db : DB) (h : Bytes) (n : Nat) (rest : Bytes) (hn16 : n ≠ 16) :
    nwkStep db (some h) (n :: rest) =
      (match findChild db h n with
       | none => (none, some [])
       | some c =>
         match findTrieNode db c.childHash with
         | none => (none, none)
         | some row =>
           if rest.take row.partialKey.length = row.partialKey then
             (some c.childHash, some (rest.drop (row.partialKey.length)))
           else (none, some [])) := by
  rcases hch : findChild db h n with _ | c
  · simp [nwkStep, List.headI, hch, hn16]
  · rcases htn : findTrieNode db c.childHash with _ | row
    · simp [nwkStep, List.headI, hch, htn, hn16]
    · by_cases hpk : rest.take row.partialKey.length = row.partialKey
      · simp [nwkStep, List.headI, hch, htn, hn16, hpk, Nat.add_comm 1 row.partialKey.length]
      · simp [nwkStep, List.headI, hch, htn, hn16, hpk]

/-- Main loop invariant of the point lookup: started at a present node whose
partial key is already consumed, with a completely present subtree below it
(to any depth bound `cf`) and a remaining key of in-range nibbles, the
`node_with_key` recursion terminates within `rest.length` steps on the row
whose post-processing is exactly the trie denotation below that node. -/
theorem nwkRun_correct (db : DB) (hst : storageOk db) :
    ∀ (fuel : Nat) (rest : Bytes) (h : Bytes) (cf : Nat),
      completeFrom db cf h = true →
      (∀ n ∈ rest, n < 16) →
      rest.length ≤ fuel →
      nwkFinish db (nwkRun db fuel (some h, some rest)) =
        some (.ok (trieLookupFrom db rest.length h rest)) := by
  intro fuel
  induction fuel with
  | zero =>
    intro rest h cf _ _ hlen
    cases rest with
    | nil => rw [nwkRun_nil, nwkFinish_value hst]; rfl
    | cons n rest => simp at hlen
  | succ fuel ih =>
    intro rest h cf hcomp hnib hlen
    cases rest with
    | nil => rw [nwkRun_nil, nwkFinish_value hst]; rfl
    | cons n rest =>
      obtain ⟨cf, rfl⟩ : ∃ g, cf = g + 1 := by
        cases cf with
        | zero => simp [completeFrom] at hcomp
        | succ g => exact ⟨g, rfl⟩
      have hn16 : n ≠ 16 := by have := hnib n (by simp); omega
      simp only [nwkRun, nwkStep_cases db h n rest hn16]
      rcases hch : findChild db h n with _ | c
      · simp only [hch]
        rw [nwkRun_nil]
        have hrhs : trieLookupFrom db (n :: rest).length h (n :: rest) = none := by
          simp only [List.length_cons, trieLookupFrom, hch]
        rw [hrhs]; rfl
      · have hcc : completeFrom db cf c.childHash = true :=
          (completeFrom_succ hcomp).2 c (findChild_mem_childRows hch)
        have hpres' : (findTrieNode db c.childHash).isSome := by
          obtain ⟨g, rfl⟩ : ∃ g, cf = g + 1 := by
            cases cf with
            | zero => simp [completeFrom] at hcc
            | succ g => exact ⟨g, rfl⟩
          exact (completeFrom_succ hcc).1
        obtain ⟨row, hrow⟩ := Option.isSome_iff_exists.mp hpres'
        simp only [hch, hrow]
        by_cases hpk : rest.take row.partialKey.length = row.partialKey
        · simp only [hpk, if_true]
          have hdl : (rest.drop row.partialKey.length).length ≤ rest.length := by
            simp [List.length_drop]
          have hmain := ih (rest.drop row.partialKey.length) c.childHash cf hcc
            (fun m hm => hnib m (List.mem_cons_of_mem _ (List.mem_of_mem_drop hm)))
            (by simp only [List.length_cons] at hlen; omega)
          rw [hmain]
          have hrhs : trieLookupFrom db (n :: rest).length h (n :: rest) =
              trieLookupFrom db rest.length c.childHash
                (rest.drop row.partialKey.length) := by
            simp only [List.length_cons, trieLookupFrom, hch, hrow, hpk, if_true]
          rw [hrhs, trieLookupFrom_fuel db hdl (le_refl _)]
        · simp only [hpk, if_false]
          rw [nwkRun_nil]
          have hrhs : trieLookupFrom db (n :: rest).length h (n :: rest) = none := by
            simp only [List.length_cons, trieLookupFrom, hch, hrow, hpk, if_false]
          rw [hrhs]; rfl

/-- C1: point-lookup correctness of `block_storage_get`.  For every block whose
state trie is fully present and stores plain values (`storageOk`), the lookup
with no parent tries returns, for every key of nibbles, exactly the entry of
the key-value map `M` denoted by the stored trie (`trieLookup`): `M`'s entry
where the key is present, `none` where absent, the traversal consuming each
node's partial key from the front of the remaining key and answering `none` on
a prefix mismatch.  It fails with `UnknownBlock` when the block is not in the
database, and with `IncompleteStorage` when a required trie node is absent —
both at the root and at any child edge reached with the child's row missing. -/
theorem C1_block_storage_get_point_lookup (db : DB) (fuel : Nat) (bh : Bytes)
    (key : Bytes) :
    ((∀ n ∈ key, n < 16) → findBlock db bh = none →
      block_storage_get db fuel bh [] key = some (.error .UnknownBlock))
    ∧ (∀ b r, (∀ n ∈ key, n < 16) → findBlock db bh = some b →
        b.stateTrieRoot = some r → findTrieNode db r = none →
        block_storage_get db fuel bh [] key = some (.error .IncompleteStorage))
    ∧ (∀ h n rest c, findChild db h n = some c →
        findTrieNode db c.childHash = none → n ≠ 16 →
        nwkFinish db (nwkRun db fuel (nwkStep db (some h) (n :: rest))) =
          some (.error .IncompleteStorage))
    ∧ (∀ b r cf, storageOk db → (∀ n ∈ key, n < 16) → findBlock db bh = some b →
        b.stateTrieRoot = some r → completeFrom db cf r = true →
        key.length + 1 ≤ fuel →
        block_storage_get db fuel bh [] key =
          some (.ok (trieLookup db key.length r key))) := by
  refine ⟨?_, ?_, ?_, ?_⟩
  · intro hk hb
    simp only [block_storage_get]
    rw [if_pos ⟨by simp, hk⟩, hb]
  · intro b r hk hb hr htn
    simp only [block_storage_get]
    rw [if_pos ⟨by simp, hk⟩, hb]
    simp only [hr, Option.some_bind, htn, List.map_nil, List.flatten_nil, List.nil_append]
    rw [nwkRun_none]
    rfl
  · intro h n rest c hch htn hn16
    rw [nwkStep_cases db h n rest hn16]
    simp only [hch, htn]
    rw [nwkRun_none]
    rfl
  · intro b r cf hst hk hb hr hcomp hfuel
    simp only [block_storage_get]
    rw [if_pos ⟨by simp, hk⟩, hb]
    obtain ⟨cf, rfl⟩ : ∃ g, cf = g + 1 := by
      cases cf with
      | zero => simp [completeFrom] at hcomp
      | succ g => exact ⟨g, rfl⟩
    have hpres : (findTrieNode db r).isSome := (completeFrom_succ hcomp).1
    obtain ⟨row, hrow⟩ := Option.isSome_iff_exists.mp hpres
    have hrh : row.hash = r := findTrieNode_hash hrow
    simp only [hr, Option.some_bind, hrow, List.map_nil, List.flatten_nil, List.nil_append]
    by_cases hpk : key.take row.partialKey.length = row.partialKey
    · rw [if_pos hpk, hrh]
      have hdl : (key.drop row.partialKey.length).length ≤ key.length := by
        simp [List.length_drop]
      have hrun := nwkRun_correct db hst fuel (key.drop row.partialKey.length) r (cf + 1)
        hcomp (fun m hm => hk m (List.mem_of_mem_drop hm)) (by omega)
      rw [hrun]
      have hrhs : trieLookup db key.length r key =
          trieLookupFrom db key.length r (key.drop row.partialKey.length) := by
        simp only [trieLookup, hrow, hpk, if_true]
      rw [hrhs, trieLookupFrom_fuel db hdl (le_refl _)]
    · rw [if_neg hpk]
      have hrhs : trieLookup db key.length r key = none := by
        simp only [trieLookup, hrow, hpk, if_false]
      rw [hrhs]
      rcases hd : key.drop row.partialKey.length with _ | ⟨m, ms⟩
      · rw [nwkRun_nil]; rfl
      · obtain ⟨fuel, rfl⟩ : ∃ g, fuel = g + 1 := ⟨fuel - 1, by omega⟩
        have hm16 : m ≠ 16 := by
          have hmem : m ∈ key.drop row.partialKey.length := by rw [hd]; simp
          have := hk m (List.mem_of_mem_drop hmem)
          omega
        simp only [nwkRun]
        have hstep : nwkStep db none (m :: ms) = (none, some []) := by
          simp [nwkStep, List.headI, hm16]
        rw [hstep, nwkRun_nil]
        rfl

/-! ## A concrete sample store

A small fully-present trie used to instantiate the theorems: root `[100]` with
partial key `[1,2]` and value `0xAA`, child `3` leading to node `[101]`
(partial key `[4]`, value `0xBB`), child `5` leading to branch `[102]` whose
child `0` is leaf `[103]` (value `0xCC`). -/

def sampleBlockHash : Bytes := List.replicate 32 7

def sampleRoot : Bytes := [100]

def sampleDB : DB :=
  { blocks := [⟨sampleBlockHash, none, some sampleRoot, 0, [0], some true, none⟩]
    blocksBody := []
    trieNode := [⟨sampleRoot, [1, 2]⟩, ⟨[101], [4]⟩, ⟨[102], []⟩, ⟨[103], []⟩]
    trieNodeChild := [⟨sampleRoot, 3, [101]⟩, ⟨sampleRoot, 5, [102]⟩, ⟨[102], 0, [103]⟩]
    trieNodeStorage := [⟨sampleRoot, some [170], none, 1⟩, ⟨[101], some [187], none, 1⟩,
      ⟨[103], some [204], none, 1⟩]
    metaBest := some sampleBlockHash
    metaFinalized := some 0
    babeSlotsPerEpoch := none
    babeFinalizedEpoch := none
    babeFinalizedNextEpoch := none
    auraSlotDuration := none
    grandpaSetId := none
    grandpaScheduledTarget := none
    grandpaTriggered := []
    grandpaScheduled := []
    auraAuthorities := [] }

/-- Witness for C1 at the sample store: the key `[1,2,3,4]` (present, value
`0xBB` version 1), and an unknown block hash. -/
theorem C1_block_storage_get_point_lookup_witness :
    block_storage_get sampleDB 20 sampleBlockHash [] [1, 2, 3, 4] =
      some (.ok (trieLookup sampleDB 4 sampleRoot [1, 2, 3, 4]))
    ∧ block_storage_get sampleDB 20 (List.replicate 32 9) [] [1, 2] =
      some (.error .UnknownBlock) :=
  ⟨(C1_block_storage_get_point_lookup sampleDB 20 sampleBlockHash [1, 2, 3, 4]).2.2.2
      ⟨sampleBlockHash, none, some sampleRoot, 0, [0], some true, none⟩ sampleRoot 5
      (by intro s hs; fin_cases hs <;> simp) (by decide) rfl rfl (by decide) (by simp),
   (C1_block_storage_get_point_lookup sampleDB 20 (List.replicate 32 9) [1, 2]).1
      (by decide) (by decide)⟩

/-! ## Block lookup operations (C8) -/

/-- `block_scale_encoded_header`: `SELECT header FROM blocks WHERE hash = ?`. -/
def block_scale_encoded_header (db : DB) (h : Bytes) : Except CorruptedError (Option Bytes) :=
  .ok ((findBlock db h).map (·.header))

/-- `block_parent`: `SELECT parent_hash FROM blocks WHERE hash = ?`; the row value
is read as a 32-byte array, so a NULL or wrongly-sized stored parent is an
internal (conversion) error. -/
def block_parent (db : DB) (h : Bytes) : Except CorruptedError (Option Bytes) :=
  match findBlock db h with
  | none => .ok none
  | some b =>
    match b.parentHash with
    | none => .error .Internal
    | some p => if p.length = 32 then .ok (some p) else .error .Internal

/-- `block_extrinsics`: `SELECT extrinsic FROM blocks_body WHERE hash = ? ORDER BY
idx ASC`.  As the source notes (`TODO: doesn't detect if block is absent`), the
result is always `Some`, holding whatever body rows exist for the hash. -/
def block_extrinsics (db : DB) (h : Bytes) : Except CorruptedError (Option (List Bytes)) :=
  .ok (some
    (((db.blocksBody.filter fun r => r.hash = h).mergeSort
        fun a b => a.idx ≤ b.idx).map (·.extrinsic)))

/-- The `collect::<Result<Vec<_>, _>>` of `block_hash_by_number`: each stored
hash must be 32 bytes, the first offending row aborts with
`InvalidBlockHashLen`. -/
def collectHashes : List BlockRow → Except CorruptedError (List Bytes)
  | [] => .ok []
  | b :: bs =>
    if b.hash.length = 32 then (collectHashes bs).map (b.hash :: ·)
    else .error .InvalidBlockHashLen

/-- `block_hash_by_number`: all hashes at a height; a number that does not fit
an `i64` gives the empty sequence. -/
def block_hash_by_number (db : DB) (n : Nat) : Except CorruptedError (List Bytes) :=
  if n < 2 ^ 63 then collectHashes (db.blocks.filter fun b => b.number = n)
  else .ok []

/-- `best_block_hash_by_number`: `SELECT hash FROM blocks WHERE number = ? AND
is_best_chain = TRUE`, `None` when no row, `InvalidBlockHashLen` when the
stored hash is not 32 bytes. -/
def best_block_hash_by_number (db : DB) (n : Nat) : Except CorruptedError (Option Bytes) :=
  if n < 2 ^ 63 then
    match db.blocks.find? fun b => b.number = n ∧ b.isBestChain = some true with
    | none => .ok none
    | some b => if b.hash.length = 32 then .ok (some b.hash) else .error .InvalidBlockHashLen
  else .ok none

/-- `collectHashes` aborts with `InvalidBlockHashLen` whenever some row's hash
is not 32 bytes long. -/
theorem collectHashes_error {l : List BlockRow} {b : BlockRow}
    (hb : b ∈ l) (hlen : b.hash.length ≠ 32) :
    collectHashes l = .error .InvalidBlockHashLen := by
  induction l with
  | nil => simp at hb
  | cons x xs ih =>
    rcases List.mem_cons.mp hb with rfl | hb'
    · simp [collectHashes, hlen]
    · by_cases hx : x.hash.length = 32
      · simp [collectHashes, hx, ih hb', Except.map]
      · simp [collectHashes, hx]

/-- C8 counterexample: `block_extrinsics` of an absent block is `Ok(Some(empty))`,
not `None` — the absence of the block is not detected. -/
theorem C8_block_extrinsics_not_none :
    findBlock sampleDB [9] = none
    ∧ block_extrinsics sampleDB [9] = .ok (some [])
    ∧ block_extrinsics sampleDB [9] ≠ .ok none := by
  refine ⟨rfl, ?_, ?_⟩
  · unfold block_extrinsics
    rw [show sampleDB.blocksBody.filter (fun r => r.hash = [9]) = ([] : List BodyRow)
        from rfl, List.mergeSort_nil]
    rfl
  · intro hco
    unfold block_extrinsics at hco
    rw [show sampleDB.blocksBody.filter (fun r => r.hash = [9]) = ([] : List BodyRow)
        from rfl, List.mergeSort_nil] at hco
    simp at hco

/-- C8 (amended): `block_scale_encoded_header` and `block_parent` return `None`
for an absent block; `block_extrinsics` returns `Some` of the empty sequence
(it does not detect absence); `block_hash_by_number` returns the empty
sequence and `best_block_hash_by_number` returns `None` when no block matches;
and in the two by-number lookups a stored hash whose length is not 32 bytes is
reported as `InvalidBlockHashLen`. -/
theorem C8_block_lookups_absent (db : DB) (h : Bytes) (n : Nat) :
    (findBlock db h = none → block_scale_encoded_header db h = .ok none)
    ∧ (findBlock db h = none → block_parent db h = .ok none)
    ∧ (findBlock db h = none → (∀ r ∈ db.blocksBody, r.hash ≠ h) →
        block_extrinsics db h = .ok (some []))
    ∧ ((∀ b ∈ db.blocks, b.number ≠ n) → block_hash_by_number db n = .ok [])
    ∧ ((∀ b ∈ db.blocks, ¬(b.number = n ∧ b.isBestChain = some true)) →
        best_block_hash_by_number db n = .ok none)
    ∧ (n < 2 ^ 63 → (∃ b ∈ db.blocks, b.number = n ∧ b.hash.length ≠ 32) →
        block_hash_by_number db n = .error .InvalidBlockHashLen)
    ∧ (n < 2 ^ 63 → ∀ b, (db.blocks.find? fun b => b.number = n ∧ b.isBestChain = some true)
          = some b → b.hash.length ≠ 32 →
        best_block_hash_by_number db n = .error .InvalidBlockHashLen) := by
  refine ⟨?_, ?_, ?_, ?_, ?_, ?_, ?_⟩
  · intro hb; simp [block_scale_encoded_header, hb]
  · intro hb; simp [block_parent, hb]
  · intro _ hbody
    have : db.blocksBody.filter (fun r => r.hash = h) = [] := by
      rw [List.filter_eq_nil_iff]
      intro r hr
      simpa using hbody r hr
    simp [block_extrinsics, this, List.mergeSort]
  · intro hn
    have : db.blocks.filter (fun b => b.number = n) = [] := by
      rw [List.filter_eq_nil_iff]
      intro b hb
      simpa using hn b hb
    simp [block_hash_by_number, this, collectHashes]
  · intro hn
    have hfind : (db.blocks.find? fun b => b.number = n ∧ b.isBestChain = some true)
        = none := by
      rw [List.find?_eq_none]
      intro b hb
      simpa using hn b hb
    by_cases hlt : n < 2 ^ 63
    · simp only [best_block_hash_by_number, if_pos hlt]
      rw [hfind]
    · simp only [best_block_hash_by_number, if_neg hlt]
  · intro hn hex
    obtain ⟨b, hb, hnum, hlen⟩ := hex
    simp only [block_hash_by_number, if_pos hn]
    exact collectHashes_error
      (List.mem_filter.mpr ⟨hb, by simpa using hnum⟩) hlen
  · intro hn b hfind hlen
    simp only [best_block_hash_by_number, if_pos hn]
    rw [hfind]
    simp [hlen]

/-- A store holding one best-chain block at height 5 whose stored hash is only
two bytes long. -/
def badHashDB : DB :=
  { sampleDB with blocks := [⟨[1, 2], none, none, 5, [0], some true, none⟩] }

/-- Witness for C8 at the sample stores. -/
theorem C8_block_lookups_absent_witness :
    block_scale_encoded_header sampleDB [9] = .ok none
    ∧ block_hash_by_number sampleDB 3 = .ok []
    ∧ best_block_hash_by_number sampleDB 3 = .ok none
    ∧ block_hash_by_number badHashDB 5 = .error .InvalidBlockHashLen
    ∧ best_block_hash_by_number badHashDB 5 = .error .InvalidBlockHashLen :=
  ⟨(C8_block_lookups_absent sampleDB [9] 3).1 rfl,
   (C8_block_lookups_absent sampleDB [9] 3).2.2.2.1 (by decide),
   (C8_block_lookups_absent sampleDB [9] 3).2.2.2.2.1 (by decide),
   (C8_block_lookups_absent badHashDB [9] 5).2.2.2.2.2.1 (by norm_num)
     ⟨⟨[1, 2], none, none, 5, [0], some true, none⟩, by decide, by decide, by decide⟩,
   (C8_block_lookups_absent badHashDB [9] 5).2.2.2.2.2.2 (by norm_num)
     ⟨[1, 2], none, none, 5, [0], some true, none⟩ rfl (by decide)⟩

/-! ## Trie bulk insert (C7): `insert_trie_nodes` -/

/-- One item of the batch handed to `insert_trie_nodes` (`InsertTrieNode` in the
source): a Merkle value, a partial key of nibbles, up to 16 children and a
storage value (`none` is `NoValue`; the `Bool` is `references_merkle_value`). -/
structure InsertItem where
  merkleValue : Bytes
  partialKeyNibbles : Bytes
  childrenMerkleValues : List (Option Bytes)
  storageValue : Option (Bytes × Bool)
deriving DecidableEq

/-- One fold step over the children of an item: `INSERT OR IGNORE INTO
trie_node_child` for a present child at its index. -/
def insertChildStep (mv : Bytes) (d : DB) : Nat × Option Bytes → DB
  | (_, none) => d
  | (i, some ch) =>
    if (findChild d mv i).isSome then d
    else { d with trieNodeChild := d.trieNodeChild ++ [⟨mv, i, ch⟩] }

/-- `INSERT OR IGNORE INTO trie_node(hash, partial_key)`. -/
def insertNodeRow (d : DB) (tn : InsertItem) : DB :=
  if (findTrieNode d tn.merkleValue).isSome then d
  else { d with trieNode := d.trieNode ++ [⟨tn.merkleValue, tn.partialKeyNibbles⟩] }

/-- `INSERT OR IGNORE INTO trie_node_storage` when the item carries a value
(stored under `value` or `trie_root_ref` according to
`references_merkle_value`). -/
def insertStorageRow (version : Nat) (d : DB) (tn : InsertItem) : DB :=
  match tn.storageValue with
  | none => d
  | some (v, refMv) =>
    if (findStorage d tn.merkleValue).isSome then d
    else { d with trieNodeStorage := d.trieNodeStorage ++
        [⟨tn.merkleValue, if refMv then none else some v,
          if refMv then some v else none, version⟩] }

/-- Processing of one batch item: node row, then storage row, then each child
edge, each with insert-or-ignore semantics. -/
def insertOneTrieNode (version : Nat) (d : DB) (tn : InsertItem) : DB :=
  tn.childrenMerkleValues.enum.foldl (insertChildStep tn.merkleValue)
    (insertStorageRow version (insertNodeRow d tn) tn)

/-- `SqliteFullDatabase::insert_trie_nodes`.  The `assert!` on every partial-key
nibble aborts the whole transaction (a panic drops it without commit), so a
batch with an out-of-range nibble leaves the state unchanged and is modelled
as `none`. -/
def insert_trie_nodes (db : DB) (batch : List InsertItem) (version : Nat) : Option DB :=
  if ∀ tn ∈ batch, ∀ n ∈ tn.partialKeyNibbles, n < 16 then
    some (batch.foldl (insertOneTrieNode version) db)
  else none

/-- `find?` over an extended list still returns an already-found row. -/
theorem find?_append_some {α : Type} {l l' : List α} {p : α → Bool} {a : α}
    (h : l.find? p = some a) : (l ++ l').find? p = some a := by
  rw [List.find?_append, h]; rfl

/-- The child fold never touches the node and storage tables, and only appends
to the child table. -/
theorem childFold_tables (mv : Bytes) :
    ∀ (entries : List (Nat × Option Bytes)) (d : DB),
      (entries.foldl (insertChildStep mv) d).trieNode = d.trieNode
      ∧ (entries.foldl (insertChildStep mv) d).trieNodeStorage = d.trieNodeStorage
      ∧ ∃ l, (entries.foldl (insertChildStep mv) d).trieNodeChild = d.trieNodeChild ++ l := by
  intro entries
  induction entries with
  | nil => intro d; exact ⟨rfl, rfl, [], by simp⟩
  | cons e rest ih =>
    intro d
    obtain ⟨h1, h2, l, h3⟩ := ih (insertChildStep mv d e)
    have hn : (insertChildStep mv d e).trieNode = d.trieNode := by
      rcases e with ⟨i, _ | ch⟩
      · rfl
      · by_cases hp : (findChild d mv i).isSome <;> simp [insertChildStep, hp]
    have hs : (insertChildStep mv d e).trieNodeStorage = d.trieNodeStorage := by
      rcases e with ⟨i, _ | ch⟩
      · rfl
      · by_cases hp : (findChild d mv i).isSome <;> simp [insertChildStep, hp]
    have hc : ∃ l0, (insertChildStep mv d e).trieNodeChild = d.trieNodeChild ++ l0 := by
      rcases e with ⟨i, _ | ch⟩
      · exact ⟨[], by simp [insertChildStep]⟩
      · by_cases hp : (findChild d mv i).isSome
        · exact ⟨[], by simp [insertChildStep, hp]⟩
        · exact ⟨[⟨mv, i, ch⟩], by simp [insertChildStep, hp]⟩
    obtain ⟨l0, hc⟩ := hc
    refine ⟨by rw [List.foldl_cons, h1, hn], by rw [List.foldl_cons, h2, hs], l0 ++ l, ?_⟩
    rw [List.foldl_cons, h3, hc, List.append_assoc]

/-- An already-found row keeps being found when the table is extended. -/
theorem isSome_find?_append {α : Type} {l l' : List α} {p : α → Bool}
    (h : (l.find? p).isSome) : ((l ++ l').find? p).isSome := by
  obtain ⟨a, ha⟩ := Option.isSome_iff_exists.mp h
  rw [find?_append_some ha]
  rfl

/-- `insertNodeRow` only (possibly) appends to the node table. -/
theorem insertNodeRow_tables (d : DB) (tn : InsertItem) :
    (∃ l, (insertNodeRow d tn).trieNode = d.trieNode ++ l)
    ∧ (insertNodeRow d tn).trieNodeStorage = d.trieNodeStorage
    ∧ (insertNodeRow d tn).trieNodeChild = d.trieNodeChild := by
  by_cases hn : (findTrieNode d tn.merkleValue).isSome
  · exact ⟨⟨[], by simp [insertNodeRow, hn]⟩, by simp [insertNodeRow, hn], by simp [insertNodeRow, hn]⟩
  · exact ⟨⟨[⟨tn.merkleValue, tn.partialKeyNibbles⟩], by simp [insertNodeRow, hn]⟩,
      by simp [insertNodeRow, hn], by simp [insertNodeRow, hn]⟩

/-- `insertStorageRow` only (possibly) appends to the storage table. -/
theorem insertStorageRow_tables (version : Nat) (d : DB) (tn : InsertItem) :
    (insertStorageRow version d tn).trieNode = d.trieNode
    ∧ (∃ l, (insertStorageRow version d tn).trieNodeStorage = d.trieNodeStorage ++ l)
    ∧ (insertStorageRow version d tn).trieNodeChild = d.trieNodeChild := by
  rcases hsv : tn.storageValue with _ | ⟨v, refMv⟩
  · exact ⟨by simp [insertStorageRow, hsv], ⟨[], by simp [insertStorageRow, hsv]⟩,
      by simp [insertStorageRow, hsv]⟩
  · by_cases hs : (findStorage d tn.merkleValue).isSome
    · exact ⟨by simp [insertStorageRow, hsv, hs], ⟨[], by simp [insertStorageRow, hsv, hs]⟩,
        by simp [insertStorageRow, hsv, hs]⟩
    · exact ⟨by simp [insertStorageRow, hsv, hs],
        ⟨[⟨tn.merkleValue, if refMv then none else some v,
          if refMv then some v else none, version⟩], by simp [insertStorageRow, hsv, hs]⟩,
        by simp [insertStorageRow, hsv, hs]⟩

/-- The per-item step of `insert_trie_nodes` only appends rows to the three trie
tables. -/
theorem insertOne_tables (version : Nat) (d : DB) (tn : InsertItem) :
    (∃ l, (insertOneTrieNode version d tn).trieNode = d.trieNode ++ l)
    ∧ (∃ l, (insertOneTrieNode version d tn).trieNodeStorage = d.trieNodeStorage ++ l)
    ∧ (∃ l, (insertOneTrieNode version d tn).trieNodeChild = d.trieNodeChild ++ l) := by
  obtain ⟨⟨l1, e1⟩, e2, e3⟩ := insertNodeRow_tables d tn
  obtain ⟨f1, ⟨l2, f2⟩, f3⟩ := insertStorageRow_tables version (insertNodeRow d tn) tn
  obtain ⟨g1, g2, l3, g3⟩ := childFold_tables tn.merkleValue tn.childrenMerkleValues.enum
    (insertStorageRow version (insertNodeRow d tn) tn)
  unfold insertOneTrieNode
  refine ⟨⟨l1, ?_⟩, ⟨l2, ?_⟩, ⟨l3, ?_⟩⟩
  · rw [g1, f1, e1]
  · rw [g2, f2, e2]
  · rw [g3, f3, e3]

/-- An option that is not `isSome` is `none`. -/
theorem opt_eq_none {α : Type} {o : Option α} (h : ¬o.isSome = true) : o = none := by
  cases o
  · rfl
  · simp at h

/-- Presence in the store of everything one batch item would insert. -/
def ItemPresent (d : DB) (tn : InsertItem) : Prop :=
  (findTrieNode d tn.merkleValue).isSome
  ∧ (tn.storageValue.isSome → (findStorage d tn.merkleValue).isSome)
  ∧ ∀ p ∈ tn.childrenMerkleValues.enum, p.2.isSome →
      (findChild d tn.merkleValue p.1).isSome

/-- Presence of an item survives the processing of any other item. -/
theorem ItemPresent_mono {d : DB} {tn : InsertItem} (version : Nat) (tn' : InsertItem)
    (h : ItemPresent d tn) : ItemPresent (insertOneTrieNode version d tn') tn := by
  obtain ⟨⟨l1, e1⟩, ⟨l2, e2⟩, ⟨l3, e3⟩⟩ := insertOne_tables version d tn'
  obtain ⟨h1, h2, h3⟩ := h
  refine ⟨?_, ?_, ?_⟩
  · unfold findTrieNode at h1 ⊢; rw [e1]; exact isSome_find?_append h1
  · intro hsv
    unfold findStorage at h2 ⊢; rw [e2]; exact isSome_find?_append (h2 hsv)
  · intro p hp hps
    have := h3 p hp hps
    unfold findChild at this ⊢; rw [e3]; exact isSome_find?_append this

/-- After the child fold, every child edge of the processed entries is present. -/
theorem childFold_present (mv : Bytes) :
    ∀ (entries : List (Nat × Option Bytes)) (d : DB),
      ∀ p ∈ entries, p.2.isSome →
        (findChild (entries.foldl (insertChildStep mv) d) mv p.1).isSome := by
  intro entries
  induction entries with
  | nil => intro d p hp; simp at hp
  | cons e rest ih =>
    intro d p hp hps
    rcases List.mem_cons.mp hp with rfl | hp'
    · rcases p with ⟨i, po⟩
      obtain ⟨ch, hch⟩ := Option.isSome_iff_exists.mp hps
      subst hch
      have hstep : (findChild (insertChildStep mv d (i, some ch)) mv i).isSome := by
        by_cases hpres : (findChild d mv i).isSome
        · simp [insertChildStep, hpres]
        · have hred : insertChildStep mv d (i, some ch) =
              { d with trieNodeChild := d.trieNodeChild ++ [⟨mv, i, ch⟩] } := by
            simp [insertChildStep, hpres]
          have hnone := opt_eq_none hpres
          unfold findChild at hnone ⊢
          rw [hred]
          simp only []
          rw [List.find?_append, hnone]
          simp
      obtain ⟨g1, g2, l, g3⟩ := childFold_tables mv rest (insertChildStep mv d (i, some ch))
      rw [List.foldl_cons]
      unfold findChild at hstep ⊢
      rw [g3]
      exact isSome_find?_append hstep
    · rw [List.foldl_cons]
      exact ih (insertChildStep mv d e) p hp' hps

/-- After its own processing, everything of an item is present. -/
theorem insertOne_present (version : Nat) (d : DB) (tn : InsertItem) :
    ItemPresent (insertOneTrieNode version d tn) tn := by
  obtain ⟨f1, ⟨l2, f2⟩, f3⟩ := insertStorageRow_tables version (insertNodeRow d tn) tn
  obtain ⟨g1, g2, l3, g3⟩ := childFold_tables tn.merkleValue tn.childrenMerkleValues.enum
    (insertStorageRow version (insertNodeRow d tn) tn)
  refine ⟨?_, ?_, ?_⟩
  · have hnode : (findTrieNode (insertNodeRow d tn) tn.merkleValue).isSome := by
      by_cases hn : (findTrieNode d tn.merkleValue).isSome
      · simp [insertNodeRow, hn]
      · have hred : insertNodeRow d tn =
            { d with trieNode := d.trieNode ++ [⟨tn.merkleValue, tn.partialKeyNibbles⟩] } := by
          simp [insertNodeRow, hn]
        have hnone := opt_eq_none hn
        unfold findTrieNode at hnone ⊢
        rw [hred]
        simp only []
        rw [List.find?_append, hnone]
        simp
    unfold findTrieNode at hnode ⊢
    rw [insertOneTrieNode, g1, f1]
    exact hnode
  · intro hsv
    obtain ⟨⟨v, refMv⟩, hv⟩ := Option.isSome_iff_exists.mp hsv
    have hstor : (findStorage (insertStorageRow version (insertNodeRow d tn) tn)
        tn.merkleValue).isSome := by
      by_cases hs : (findStorage (insertNodeRow d tn) tn.merkleValue).isSome
      · simp [insertStorageRow, hv, hs]
      · have hred : insertStorageRow version (insertNodeRow d tn) tn =
            { insertNodeRow d tn with trieNodeStorage :=
                (insertNodeRow d tn).trieNodeStorage ++
                  [⟨tn.merkleValue, if refMv then none else some v,
                    if refMv then some v else none, version⟩] } := by
          simp [insertStorageRow, hv, hs]
        have hnone := opt_eq_none hs
        unfold findStorage at hnone ⊢
        rw [hred]
        simp only []
        rw [List.find?_append, hnone]
        simp
    unfold findStorage at hstor ⊢
    rw [insertOneTrieNode, g2]
    exact hstor
  · intro p hp hps
    rw [insertOneTrieNode]
    exact childFold_present tn.merkleValue tn.childrenMerkleValues.enum _ p hp hps

/-- The child fold is the identity when every child edge is already present. -/
theorem childFold_id (mv : Bytes) :
    ∀ (entries : List (Nat × Option Bytes)) (d : DB),
      (∀ p ∈ entries, p.2.isSome → (findChild d mv p.1).isSome) →
      entries.foldl (insertChildStep mv) d = d := by
  intro entries
  induction entries with
  | nil => intro d _; rfl
  | cons e rest ih =>
    intro d hpres
    rcases e with ⟨i, _ | ch⟩
    · rw [List.foldl_cons]
      exact ih d fun p hp => hpres p (List.mem_cons_of_mem _ hp)
    · have hi : (findChild d mv i).isSome := hpres (i, some ch) (by simp) (by simp)
      rw [List.foldl_cons, show insertChildStep mv d (i, some ch) = d by
        simp [insertChildStep, hi]]
      exact ih d fun p hp => hpres p (List.mem_cons_of_mem _ hp)

/-- Processing an item whose rows are all present changes nothing. -/
theorem insertOne_id (version : Nat) (d : DB) (tn : InsertItem)
    (h : ItemPresent d tn) : insertOneTrieNode version d tn = d := by
  obtain ⟨h1, h2, h3⟩ := h
  have e1 : insertNodeRow d tn = d := by simp [insertNodeRow, h1]
  have e2 : insertStorageRow version d tn = d := by
    rcases hsv : tn.storageValue with _ | ⟨v, refMv⟩
    · simp [insertStorageRow, hsv]
    · simp [insertStorageRow, hsv, h2 (by simp [hsv])]
  rw [insertOneTrieNode, e1, e2]
  exact childFold_id tn.merkleValue tn.childrenMerkleValues.enum d h3

/-- Presence of an item survives a whole batch. -/
theorem ItemPresent_foldl {tn : InsertItem} (version : Nat) :
    ∀ (batch : List InsertItem) (d : DB), ItemPresent d tn →
      ItemPresent (batch.foldl (insertOneTrieNode version) d) tn := by
  intro batch
  induction batch with
  | nil => intro d h; exact h
  | cons x rest ih =>
    intro d h
    rw [List.foldl_cons]
    exact ih _ (ItemPresent_mono version x h)

/-- After one run of a batch, everything every item inserts is present. -/
theorem batch_present (version : Nat) :
    ∀ (batch : List InsertItem) (d : DB) (tn : InsertItem), tn ∈ batch →
      ItemPresent (batch.foldl (insertOneTrieNode version) d) tn := by
  intro batch
  induction batch with
  | nil => intro d tn h; simp at h
  | cons x rest ih =>
    intro d tn h
    rcases List.mem_cons.mp h with rfl | h'
    · rw [List.foldl_cons]
      exact ItemPresent_foldl version rest _ (insertOne_present version d tn)
    · rw [List.foldl_cons]
      exact ih _ tn h'

/-- A batch whose items are all present is a no-op. -/
theorem batch_id (version : Nat) :
    ∀ (batch : List InsertItem) (d : DB),
      (∀ tn ∈ batch, ItemPresent d tn) →
      batch.foldl (insertOneTrieNode version) d = d := by
  intro batch
  induction batch with
  | nil => intro d _; rfl
  | cons x rest ih =>
    intro d h
    rw [List.foldl_cons, insertOne_id version d x (h x (by simp))]
    exact ih d fun tn htn => h tn (List.mem_cons_of_mem _ htn)

/-- C7: trie bulk-insert idempotence.  Running `insert_trie_nodes` on the same
batch and version twice in a row leaves the database exactly as after one run,
and rows already present — node, storage or child-edge — are never
overwritten by a run. -/
theorem C7_insert_trie_nodes_idempotent (db db' : DB) (batch : List InsertItem)
    (version : Nat) :
    (insert_trie_nodes db batch version = some db' →
      insert_trie_nodes db' batch version = some db')
    ∧ (∀ h row, findTrieNode db h = some row →
        insert_trie_nodes db batch version = some db' → findTrieNode db' h = some row)
    ∧ (∀ h s, findStorage db h = some s →
        insert_trie_nodes db batch version = some db' → findStorage db' h = some s)
    ∧ (∀ h n c, findChild db h n = some c →
        insert_trie_nodes db batch version = some db' → findChild db' h n = some c) := by
  have hfoldtables : ∀ (l : List InsertItem) (d : DB),
      (∃ e, (l.foldl (insertOneTrieNode version) d).trieNode = d.trieNode ++ e)
      ∧ (∃ e, (l.foldl (insertOneTrieNode version) d).trieNodeStorage
          = d.trieNodeStorage ++ e)
      ∧ (∃ e, (l.foldl (insertOneTrieNode version) d).trieNodeChild
          = d.trieNodeChild ++ e) := by
    intro l
    induction l with
    | nil => intro d; exact ⟨⟨[], by simp⟩, ⟨[], by simp⟩, ⟨[], by simp⟩⟩
    | cons x rest ih =>
      intro d
      obtain ⟨⟨a1, e1⟩, ⟨a2, e2⟩, ⟨a3, e3⟩⟩ := insertOne_tables version d x
      obtain ⟨⟨b1, f1⟩, ⟨b2, f2⟩, ⟨b3, f3⟩⟩ := ih (insertOneTrieNode version d x)
      exact ⟨⟨a1 ++ b1, by rw [List.foldl_cons, f1, e1, List.append_assoc]⟩,
        ⟨a2 ++ b2, by rw [List.foldl_cons, f2, e2, List.append_assoc]⟩,
        ⟨a3 ++ b3, by rw [List.foldl_cons, f3, e3, List.append_assoc]⟩⟩
  refine ⟨?_, ?_, ?_, ?_⟩
  · intro hrun
    unfold insert_trie_nodes at hrun ⊢
    by_cases hguard : ∀ tn ∈ batch, ∀ n ∈ tn.partialKeyNibbles, n < 16
    · rw [if_pos hguard] at hrun ⊢
      have hdb' : batch.foldl (insertOneTrieNode version) db = db' :=
        Option.some.inj hrun
      rw [batch_id version batch db' fun tn htn => by
        rw [← hdb']; exact batch_present version batch db tn htn]
    · rw [if_neg hguard] at hrun
      exact absurd hrun (by simp)
  · intro h row hfind hrun
    unfold insert_trie_nodes at hrun
    by_cases hguard : ∀ tn ∈ batch, ∀ n ∈ tn.partialKeyNibbles, n < 16
    · rw [if_pos hguard] at hrun
      have hdb' : batch.foldl (insertOneTrieNode version) db = db' :=
        Option.some.inj hrun
      obtain ⟨⟨e, he⟩, _, _⟩ := hfoldtables batch db
      unfold findTrieNode at hfind ⊢
      rw [← hdb', he]
      exact find?_append_some hfind
    · rw [if_neg hguard] at hrun
      exact absurd hrun (by simp)
  · intro h s hfind hrun
    unfold insert_trie_nodes at hrun
    by_cases hguard : ∀ tn ∈ batch, ∀ n ∈ tn.partialKeyNibbles, n < 16
    · rw [if_pos hguard] at hrun
      have hdb' : batch.foldl (insertOneTrieNode version) db = db' :=
        Option.some.inj hrun
      obtain ⟨_, ⟨e, he⟩, _⟩ := hfoldtables batch db
      unfold findStorage at hfind ⊢
      rw [← hdb', he]
      exact find?_append_some hfind
    · rw [if_neg hguard] at hrun
      exact absurd hrun (by simp)
  · intro h n c hfind hrun
    unfold insert_trie_nodes at hrun
    by_cases hguard : ∀ tn ∈ batch, ∀ n ∈ tn.partialKeyNibbles, n < 16
    · rw [if_pos hguard] at hrun
      have hdb' : batch.foldl (insertOneTrieNode version) db = db' :=
        Option.some.inj hrun
      obtain ⟨_, _, ⟨e, he⟩⟩ := hfoldtables batch db
      unfold findChild at hfind ⊢
      rw [← hdb', he]
      exact find?_append_some hfind
    · rw [if_neg hguard] at hrun
      exact absurd hrun (by simp)

/-- A one-item batch inserting a fresh leaf `[200]`. -/
def sampleBatch : List InsertItem :=
  [⟨[200], [7], List.replicate 16 none, some ([1], false)⟩]

/-- The sample store after one run of `sampleBatch`. -/
def sampleDB2 : DB :=
  { sampleDB with
    trieNode := sampleDB.trieNode ++ [⟨[200], [7]⟩]
    trieNodeStorage := sampleDB.trieNodeStorage ++ [⟨[200], some [1], none, 1⟩] }

/-- Witness for C7: one concrete run, rerun and preservation of a present row. -/
theorem C7_insert_trie_nodes_idempotent_witness :
    insert_trie_nodes sampleDB2 sampleBatch 1 = some sampleDB2
    ∧ findTrieNode sampleDB2 sampleRoot = some ⟨sampleRoot, [1, 2]⟩ :=
  ⟨(C7_insert_trie_nodes_idempotent sampleDB sampleDB2 sampleBatch 1).1 rfl,
   (C7_insert_trie_nodes_idempotent sampleDB sampleDB2 sampleBatch 1).2.1
     sampleRoot ⟨sampleRoot, [1, 2]⟩ rfl rfl⟩

/-! ## Headers and the block-tree operations

Header decoding and hashing are external collaborators (`header::decode`,
`header::hash_from_scale_encoded_header`): the operations below take a
`decode` function and a `hashFn` as parameters and a `Header` carries exactly
the fields the database reads from a decoded header (number, parent hash,
state root, and the digest items `set_finalized` inspects). -/

/-- The BABE epoch-change digest item of a header (`babe_epoch_information`):
new authorities, randomness, and the optional `NextConfig` `(c, allowed_slots)`. -/
structure BabeNewEpochDigest where
  authorities : List (Bytes × Nat)
  randomness : Bytes
  nextConfig : Option ((Nat × Nat) × Nat)
deriving DecidableEq

/-- A decoded header, as the database consumes it. -/
structure Header where
  number : Nat
  parentHash : Bytes
  stateRoot : Bytes
  babeEpochDigest : Option BabeNewEpochDigest
  babePreRuntimeSlot : Option Nat
  grandpaScheduledChanges : List (Nat × List (Bytes × Nat))
deriving DecidableEq

/-! ### Best-chain reassignment: `set_best_chain`

The recursive CTE `changes` walks the new and the old best chain downward in
lockstep; a row is `(block_to_include, block_to_retract, include_number,
retract_number)` with NULL hashes standing for "one past the new/old best". -/

/-- A row of the `changes` CTE. -/
structure ChangeRow where
  inc : Option Bytes
  ret : Option Bytes
  incNum : Int
  retNum : Int
deriving DecidableEq

/-- `COALESCE(blocks_x.parent_hash, :anchor)` where `blocks_x` is the LEFT JOIN
of `blocks` on the row's hash: the stored parent hash when the hash names a
present block with a non-NULL parent, the anchor otherwise. -/
def coalesceParent (db : DB) (v : Option Bytes) (anchor : Bytes) : Bytes :=
  match v.bind (findBlock db) with
  | some b => match b.parentHash with
    | some p => p
    | none => anchor
  | none => anchor

/-- The recursion guard of the `changes` CTE: another row is generated while
the two counters differ or the two coalesced parents differ. -/
def sbcGuard (db : DB) (newBest cur : Bytes) (r : ChangeRow) : Prop :=
  r.incNum ≠ r.retNum ∨ coalesceParent db r.inc newBest ≠ coalesceParent db r.ret cur

instance (db : DB) (newBest cur : Bytes) (r : ChangeRow) :
    Decidable (sbcGuard db newBest cur r) := by
  unfold sbcGuard; infer_instance

/-- One step of the `changes` recursion: the side whose counter is largest (or
both, when equal) steps to its parent and decrements its counter. -/
def sbcStep (db : DB) (newBest cur : Bytes) (r : ChangeRow) : ChangeRow :=
  { inc := if r.incNum ≥ r.retNum then some (coalesceParent db r.inc newBest) else r.inc
    ret := if r.retNum ≥ r.incNum then some (coalesceParent db r.ret cur) else r.ret
    incNum := if r.incNum ≥ r.retNum then r.incNum - 1 else r.incNum
    retNum := if r.retNum ≥ r.incNum then r.retNum - 1 else r.retNum }

/-- All rows of the `changes` CTE from a starting row, or `none` when the
recursion does not terminate within the fuel. -/
def sbcRows (db : DB) (newBest cur : Bytes) : Nat → ChangeRow → Option (List ChangeRow)
  | 0, r => if sbcGuard db newBest cur r then none else some [r]
  | fuel + 1, r =>
    if sbcGuard db newBest cur r then
      (sbcRows db newBest cur fuel (sbcStep db newBest cur r)).map (r :: ·)
    else some [r]

/-- The `UPDATE blocks SET is_best_chain = (blocks.hash = changes.block_to_include)
FROM changes WHERE ...` applied to one block row: a block matched by some change
row gets `hash = block_to_include` as its flag — NULL when that row's
`block_to_include` is NULL.  (SQLite picks an arbitrary matching row; the model
picks the first, which is unambiguous whenever a block matches at most one
side of the walk.) -/
def applyChanges (rows : List ChangeRow) (b : BlockRow) : BlockRow :=
  match rows.find? fun r => r.inc = some b.hash ∨ r.ret = some b.hash with
  | none => b
  | some r => { b with isBestChain := r.inc.map fun x => decide (x = b.hash) }

/-- `set_best_chain`: reads the `best` meta key, runs the `changes` walk from
the two best blocks, applies the flag update and points `best` at the new
block.  When either block is absent the CTE is empty and only the meta key
moves. -/
def set_best_chain (db : DB) (newBest : Bytes) (fuel : Nat) :
    Option (Except CorruptedError DB) :=
  match db.metaBest with
  | none => some (.error .MissingMetaKey)
  | some cur =>
    match findBlock db newBest, findBlock db cur with
    | some binc, some bret =>
      match sbcRows db newBest cur fuel
          ⟨none, none, (binc.number : Int) + 1, (bret.number : Int) + 1⟩ with
      | none => none
      | some rows => some (.ok { db with
          blocks := db.blocks.map (applyChanges rows)
          metaBest := some newBest })
    | _, _ => some (.ok { db with metaBest := some newBest })

/-! ### `insert` -/

/-- `SqliteFullDatabase::insert`: hash the header, decode it, refuse duplicates
and missing parents, write the block row (flag false) and its body rows, and —
when `is_new_best` — require the number to exceed the finalized number and
reassign the best chain.  `none` models a panic (`i64::try_from(...).unwrap()`
on a number outside `i64`) or a non-terminating best-chain walk; either way the
transaction is dropped without commit. -/
def insert_block (decode : Bytes → Option Header) (hashFn : Bytes → Bytes)
    (db : DB) (hdrBytes : Bytes) (isNewBest : Bool) (body : List Bytes) (fuel : Nat) :
    Option (Except InsertError DB) :=
  let blockHash := hashFn hdrBytes
  match decode hdrBytes with
  | none => some (.error .BadHeader)
  | some hdr =>
    if hasBlock db blockHash then some (.error .Duplicate)
    else if ¬ hasBlock db hdr.parentHash then some (.error .MissingParent)
    else if 2 ^ 63 ≤ hdr.number then none
    else
      let db1 : DB := { db with
        blocks := db.blocks ++ [⟨blockHash, some hdr.parentHash, some hdr.stateRoot,
          hdr.number, hdrBytes, some false, none⟩]
        blocksBody := db.blocksBody ++ (body.enum.map fun p => ⟨blockHash, p.1, p.2⟩) }
      if isNewBest then
        match db1.metaFinalized with
        | none => some (.error (.Corrupted .MissingMetaKey))
        | some fin =>
          if hdr.number ≤ fin then some (.error .BestNotInFinalizedChain)
          else
            match set_best_chain db1 blockHash fuel with
            | none => none
            | some (.error e) => some (.error (.Corrupted e))
            | some (.ok db2) => some (.ok db2)
      else some (.ok db1)

/-- The observable transaction semantics of `insert`: on any error the
transaction is dropped without commit, so the database is unchanged. -/
def insertRun (decode : Bytes → Option Header) (hashFn : Bytes → Bytes)
    (db : DB) (hdrBytes : Bytes) (isNewBest : Bool) (body : List Bytes) (fuel : Nat) :
    Option (DB × Option InsertError) :=
  match insert_block decode hashFn db hdrBytes isNewBest body fuel with
  | none => none
  | some (.ok d) => some (d, none)
  | some (.error e) => some (db, some e)

/-! ### `set_finalized` -/

/-- The BABE metadata advancement for one finalized header carrying an epoch
digest: promote `babe_finalized_next_epoch` into `babe_finalized_epoch` and
compute the new next epoch (index + 1; start slot from the previous epoch or
the pre-runtime digest plus `slots_per_epoch`; authorities and randomness from
the digest; `c` and `allowed_slots` from `NextConfig` when present, else
carried over).  `none` models the `unwrap()` panics (missing meta keys or
pre-runtime digest, `checked_add` overflow); `expect_nz_u64` of a zero
`slots_per_epoch` is `InvalidNumber`. -/
def babeAdvance (db : DB) (hdr : Header) : Option (Except SetFinalizedError DB) :=
  match hdr.babeEpochDigest with
  | none => some (.ok db)
  | some dig =>
    match db.babeFinalizedNextEpoch with
    | none => none
    | some decodedEpoch =>
      match hdr.babePreRuntimeSlot with
      | none => none
      | some slot =>
        match db.babeSlotsPerEpoch with
        | none => none
        | some spe =>
          if spe = 0 then some (.error (.Corrupted .InvalidNumber))
          else if decodedEpoch.epochIndex + 1 < 2 ^ 64
              ∧ decodedEpoch.startSlotNumber.getD slot + spe < 2 ^ 64 then
            some (.ok { db with
              babeFinalizedEpoch := db.babeFinalizedNextEpoch
              babeFinalizedNextEpoch := some
                { epochIndex := decodedEpoch.epochIndex + 1
                  startSlotNumber := some (decodedEpoch.startSlotNumber.getD slot + spe)
                  authorities := dig.authorities
                  randomness := dig.randomness
                  cNum := match dig.nextConfig with
                    | some cfg => cfg.1.1
                    | none => decodedEpoch.cNum
                  cDen := match dig.nextConfig with
                    | some cfg => cfg.1.2
                    | none => decodedEpoch.cDen
                  allowedSlots := match dig.nextConfig with
                    | some cfg => cfg.2
                    | none => decodedEpoch.allowedSlots } })
          else none

/-- The GRANDPA metadata advancement for one finalized header, applied only
when `grandpa_authorities_set_id` is set: each `ScheduledChange` digest item
(`assert_eq!(change.delay, 0)`: a non-zero delay panics, `none`) replaces the
triggered-authorities table and increments the set id. -/
def grandpaAdvance (db : DB) (hdr : Header) : Option DB :=
  if db.grandpaSetId.isSome then
    hdr.grandpaScheduledChanges.foldlM
      (fun d ch =>
        if ch.1 = 0 then
          some { d with
            grandpaTriggered := ch.2.enum.map fun p => (p.1, p.2.1, p.2.2)
            grandpaSetId := d.grandpaSetId.map (· + 1) }
        else none)
      db
  else some db

/-- The per-height loop of `set_finalized`: for each height from the old
finalized number (exclusive) to the new one (inclusive), look up the sole
canonical block (the first row; a missing one is `MissingBlockHeader`), decode
its header and advance the BABE and GRANDPA metadata. -/
def setFinalizedLoop (decode : Bytes → Option Header) :
    DB → Nat → Nat → Option (Except SetFinalizedError DB)
  | db, 0, _ => some (.ok db)
  | db, count + 1, height =>
    match (blockHashesByNumber db height).head? with
    | none => some (.error (.Corrupted .MissingBlockHeader))
    | some bh =>
      match blockHeaderOf db bh with
      | none => some (.error (.Corrupted .MissingBlockHeader))
      | some hb =>
        match decode hb with
        | none => some (.error (.Corrupted .BlockHeaderCorrupted))
        | some hdr =>
          match babeAdvance db hdr with
          | none => none
          | some (.error e) => some (.error e)
          | some (.ok db1) =>
            match grandpaAdvance db1 hdr with
            | none => none
            | some db2 => setFinalizedLoop decode db2 count (height + 1)

/-- `SqliteFullDatabase::set_finalized`: `UnknownBlock` when the target is
absent; success without change when the target's number equals the current
finalized number (the hash is never compared); `RevertForbidden` when it is
lower; otherwise write the new finalized number and roll the consensus
metadata forward height by height. -/
def set_finalized (decode : Bytes → Option Header) (db : DB) (targetHash : Bytes) :
    Option (Except SetFinalizedError DB) :=
  match blockHeaderOf db targetHash with
  | none => some (.error .UnknownBlock)
  | some hb =>
    match decode hb with
    | none => some (.error (.Corrupted .BlockHeaderCorrupted))
    | some hdr =>
      match db.metaFinalized with
      | none => some (.error (.Corrupted .MissingMetaKey))
      | some cur =>
        if hdr.number = cur then some (.ok db)
        else if hdr.number < cur then some (.error .RevertForbidden)
        else
          setFinalizedLoop decode { db with metaFinalized := some hdr.number }
            (hdr.number - cur) (cur + 1)

/-- The observable transaction semantics of `set_finalized`. -/
def setFinalizedRun (decode : Bytes → Option Header) (db : DB) (targetHash : Bytes) :
    Option (DB × Option SetFinalizedError) :=
  match set_finalized decode db targetHash with
  | none => none
  | some (.ok d) => some (d, none)
  | some (.error e) => some (db, some e)

/-! ### The pruner: `purge_finality_orphans` -/

/-- The `to_delete` recursive CTE of `purge_block_storage`, as a worklist
closure: a node in the worklist is collected; its children are added unless a
child is some block's state root, and none of them is added when some storage
row references the parent through `trie_root_ref`.  (The source notes this
does not follow `trie_root_ref` when reclaiming, and may under- or
over-collect shared nodes.) -/
def purgeClosure (db : DB) : Nat → List Bytes → List Bytes → Option (List Bytes)
  | _, [], acc => some acc
  | 0, _ :: _, _ => none
  | fuel + 1, nhash :: queue, acc =>
    let parentRef := db.trieNodeStorage.any fun s => s.trieRootRef = some nhash
    let newNodes := if parentRef then [] else
      ((childRowsOf db nhash).filter fun c =>
        ¬ db.blocks.any fun b => b.stateTrieRoot = some c.childHash).map (·.childHash)
    purgeClosure db fuel (queue ++ newNodes) (acc ++ [nhash])

/-- `purge_block_storage`: read the block's state root (a missing block or a
NULL root is an internal error from the untyped row read), clear the root so
that the block no longer counts as a referencer, then delete from `trie_node`
the closure rooted there — seeded only if the root's row exists and is neither
another block's state root nor a `trie_root_ref` target. -/
def purge_block_storage (db : DB) (h : Bytes) (fuel : Nat) :
    Option (Except CorruptedError DB) :=
  match findBlock db h with
  | none => some (.error .Internal)
  | some b =>
    match b.stateTrieRoot with
    | none => some (.error .Internal)
    | some root =>
      let db1 : DB := { db with blocks := db.blocks.map fun bb =>
        if bb.hash = h then { bb with stateTrieRoot := none } else bb }
      let seeds := if (findTrieNode db1 root).isSome
          ∧ ¬ (db1.blocks.any fun bb => ¬(bb.hash = h) ∧ bb.stateTrieRoot = some root)
          ∧ ¬ (db1.trieNodeStorage.any fun s => s.trieRootRef = some root)
        then [root] else []
      match purgeClosure db1 fuel seeds [] with
      | none => none
      | some dels => some (.ok { db1 with
          trieNode := db1.trieNode.filter fun r => r.hash ∉ dels })

/-- `purge_block`: purge the storage, then delete the body rows and the block
row. -/
def purge_block (db : DB) (h : Bytes) (fuel : Nat) : Option (Except CorruptedError DB) :=
  match purge_block_storage db h fuel with
  | none => none
  | some (.error e) => some (.error e)
  | some (.ok d1) => some (.ok { d1 with
      blocksBody := d1.blocksBody.filter fun r => ¬(r.hash = h)
      blocks := d1.blocks.filter fun b => ¬(b.hash = h) })

/-- The per-orphan loop of `purge_finality_orphans`. -/
def purgeLoop (fuel : Nat) : List Bytes → DB → Option (Except CorruptedError DB)
  | [], db => some (.ok db)
  | h :: rest, db =>
    match purge_block db h fuel with
    | none => none
    | some (.error e) => some (.error e)
    | some (.ok d1) => purgeLoop fuel rest d1

/-- `SqliteFullDatabase::purge_finality_orphans`: select every block whose
number is at most the finalized number and whose `is_best_chain` flag is
FALSE, and purge each in turn. -/
def purge_finality_orphans (db : DB) (fuel : Nat) : Option (Except CorruptedError DB) :=
  match db.metaFinalized with
  | none => some (.error .MissingMetaKey)
  | some fin =>
    purgeLoop fuel
      ((db.blocks.filter fun b => b.number ≤ fin ∧ b.isBestChain = some false).map (·.hash))
      db

/-! ## C4: insert error conditions and atomicity -/

/-- C4: `insert` fails with `BadHeader` when the header does not decode, with
`Duplicate` when a block with the header's hash exists, with `MissingParent`
when the parent is absent, and with `BestNotInFinalizedChain` when
`is_new_best` holds and the number does not exceed the finalized number; on
each failure the run leaves the database unchanged (the transaction is
dropped without commit). -/
theorem C4_insert_errors_atomic (decode : Bytes → Option Header)
    (hashFn : Bytes → Bytes) (db : DB) (hdrBytes : Bytes) (isNewBest : Bool)
    (body : List Bytes) (fuel : Nat) :
    (decode hdrBytes = none →
      insertRun decode hashFn db hdrBytes isNewBest body fuel =
        some (db, some .BadHeader))
    ∧ (∀ hdr, decode hdrBytes = some hdr → hasBlock db (hashFn hdrBytes) = true →
      insertRun decode hashFn db hdrBytes isNewBest body fuel =
        some (db, some .Duplicate))
    ∧ (∀ hdr, decode hdrBytes = some hdr → hasBlock db (hashFn hdrBytes) = false →
        hasBlock db hdr.parentHash = false →
      insertRun decode hashFn db hdrBytes isNewBest body fuel =
        some (db, some .MissingParent))
    ∧ (∀ hdr fin, decode hdrBytes = some hdr → hasBlock db (hashFn hdrBytes) = false →
        hasBlock db hdr.parentHash = true → hdr.number < 2 ^ 63 →
        db.metaFinalized = some fin → hdr.number ≤ fin →
      insertRun decode hashFn db hdrBytes true body fuel =
        some (db, some .BestNotInFinalizedChain)) := by
  refine ⟨?_, ?_, ?_, ?_⟩
  · intro hdec
    simp [insertRun, insert_block, hdec]
  · intro hdr hdec hdup
    simp [insertRun, insert_block, hdec, hdup]
  · intro hdr hdec hdup hpar
    simp [insertRun, insert_block, hdec, hdup, hpar]
  · intro hdr fin hdec hdup hpar hnum hfin hle
    have hno : ¬ (2 ^ 63 ≤ hdr.number) := by omega
    simp [insertRun, insert_block, hdec, hdup, hpar, hfin, hle, hno]
    rw [if_neg (by omega)]

/-- A concrete decoder for the insert witnesses: `[1]` decodes to a child of
the genesis `[0]`, `[2]` to a block with an absent parent, `[3]` to a block
whose number does not exceed the finalized number; anything else fails. -/
def wDecode : Bytes → Option Header := fun b =>
  match b with
  | [1] => some ⟨1, [0], [42], none, none, []⟩
  | [2] => some ⟨1, [77], [42], none, none, []⟩
  | [3] => some ⟨0, [0], [42], none, none, []⟩
  | _ => none

/-- A concrete header-hash function for the witnesses. -/
def wHashFn : Bytes → Bytes := fun b => 200 :: b

/-- A store holding only the genesis block `[0]`, best and finalized at 0. -/
def genesisDB : DB :=
  { blocks := [⟨[0], none, none, 0, [0], some true, none⟩]
    blocksBody := []
    trieNode := []
    trieNodeChild := []
    trieNodeStorage := []
    metaBest := some [0]
    metaFinalized := some 0
    babeSlotsPerEpoch := none
    babeFinalizedEpoch := none
    babeFinalizedNextEpoch := none
    auraSlotDuration := none
    grandpaSetId := none
    grandpaScheduledTarget := none
    grandpaTriggered := []
    grandpaScheduled := []
    auraAuthorities := [] }

/-- `genesisDB` with the block `[200, 1]` (the hash of header `[1]`) present. -/
def genesisDupDB : DB :=
  { genesisDB with blocks := genesisDB.blocks ++
      [⟨[200, 1], some [0], some [42], 1, [1], some false, none⟩] }

/-- Witness for C4: each of the four failures at a concrete input, the
database coming back unchanged. -/
theorem C4_insert_errors_atomic_witness :
    insertRun wDecode wHashFn genesisDB [9] false [] 5 =
      some (genesisDB, some .BadHeader)
    ∧ insertRun wDecode wHashFn genesisDupDB [1] false [] 5 =
      some (genesisDupDB, some .Duplicate)
    ∧ insertRun wDecode wHashFn genesisDB [2] false [] 5 =
      some (genesisDB, some .MissingParent)
    ∧ insertRun wDecode wHashFn genesisDB [3] true [] 5 =
      some (genesisDB, some .BestNotInFinalizedChain) :=
  ⟨(C4_insert_errors_atomic wDecode wHashFn genesisDB [9] false [] 5).1 rfl,
   (C4_insert_errors_atomic wDecode wHashFn genesisDupDB [1] false [] 5).2.1
     ⟨1, [0], [42], none, none, []⟩ rfl rfl,
   (C4_insert_errors_atomic wDecode wHashFn genesisDB [2] false [] 5).2.2.1
     ⟨1, [77], [42], none, none, []⟩ rfl rfl rfl,
   (C4_insert_errors_atomic wDecode wHashFn genesisDB [3] true [] 5).2.2.2
     ⟨0, [0], [42], none, none, []⟩ 0 rfl rfl rfl (by norm_num) rfl (le_refl 0)⟩

/-! ## C5: finality monotonicity -/

/-- `babeAdvance` only touches the BABE meta rows. -/
theorem babeAdvance_metaFinalized {db d : DB} {hdr : Header}
    (h : babeAdvance db hdr = some (.ok d)) : d.metaFinalized = db.metaFinalized := by
  unfold babeAdvance at h
  rcases hdig : hdr.babeEpochDigest with _ | dig <;> simp only [hdig] at h
  · rw [← Except.ok.inj (Option.some.inj h)]
  · rcases hne : db.babeFinalizedNextEpoch with _ | de <;> simp only [hne] at h
    · exact Option.noConfusion h
    · rcases hsl : hdr.babePreRuntimeSlot with _ | slot <;> simp only [hsl] at h
      · exact Option.noConfusion h
      rcases hspe : db.babeSlotsPerEpoch with _ | spe <;> simp only [hspe] at h
      · exact Option.noConfusion h
      by_cases h0 : spe = 0
      · rw [if_pos h0] at h
        simp at h
      · rw [if_neg h0] at h
        by_cases hov : de.epochIndex + 1 < 2 ^ 64
            ∧ de.startSlotNumber.getD slot + spe < 2 ^ 64
        · rw [if_pos hov] at h
          rw [← Except.ok.inj (Option.some.inj h)]
        · rw [if_neg hov] at h
          simp at h

/-- `grandpaAdvance` only touches the GRANDPA meta rows. -/
theorem grandpaAdvance_metaFinalized {db d : DB} {hdr : Header}
    (h : grandpaAdvance db hdr = some d) : d.metaFinalized = db.metaFinalized := by
  unfold grandpaAdvance at h
  by_cases hset : db.grandpaSetId.isSome
  · rw [if_pos hset] at h
    clear hset
    generalize hch : hdr.grandpaScheduledChanges = cs at h
    clear hch
    induction cs generalizing db with
    | nil => cases h; rfl
    | cons c rest ih =>
      rw [List.foldlM_cons] at h
      by_cases hc0 : c.1 = 0
      · rw [if_pos hc0] at h
        simp only [Option.bind_eq_bind, Option.some_bind] at h
        have hm := ih h
        exact hm
      · rw [if_neg hc0] at h
        simp at h
  · rw [if_neg hset] at h
    cases h
    rfl

/-- The trie-insert steps never touch the meta rows. -/
theorem insertOne_meta (version : Nat) (d : DB) (tn : InsertItem) :
    (insertOneTrieNode version d tn).metaFinalized = d.metaFinalized := by
  have hstep : ∀ (e : Nat × Option Bytes) (d0 : DB),
      (insertChildStep tn.merkleValue d0 e).metaFinalized = d0.metaFinalized := by
    intro e d0
    rcases e with ⟨i, _ | ch⟩
    · rfl
    · by_cases hp : (findChild d0 tn.merkleValue i).isSome <;>
        simp [insertChildStep, hp]
  have hfold : ∀ (es : List (Nat × Option Bytes)) (d0 : DB),
      (es.foldl (insertChildStep tn.merkleValue) d0).metaFinalized
        = d0.metaFinalized := by
    intro es
    induction es with
    | nil => intro d0; rfl
    | cons e rest ih =>
      intro d0
      rw [List.foldl_cons, ih, hstep]
  have hnode : (insertNodeRow d tn).metaFinalized = d.metaFinalized := by
    by_cases hp : (findTrieNode d tn.merkleValue).isSome <;>
      simp [insertNodeRow, hp]
  have hstor : ∀ d0 : DB,
      (insertStorageRow version d0 tn).metaFinalized = d0.metaFinalized := by
    intro d0
    rcases hsv : tn.storageValue with _ | ⟨v, refMv⟩
    · simp [insertStorageRow, hsv]
    · by_cases hp : (findStorage d0 tn.merkleValue).isSome <;>
        simp [insertStorageRow, hsv, hp]
  unfold insertOneTrieNode
  rw [hfold, hstor, hnode]

/-- `insert_trie_nodes` never touches the meta rows. -/
theorem insert_trie_nodes_meta {db d : DB} {batch : List InsertItem} {version : Nat}
    (h : insert_trie_nodes db batch version = some d) :
    d.metaFinalized = db.metaFinalized := by
  unfold insert_trie_nodes at h
  by_cases hg : ∀ tn ∈ batch, ∀ n ∈ tn.partialKeyNibbles, n < 16
  · rw [if_pos hg] at h
    cases h
    clear hg
    induction batch generalizing db with
    | nil => rfl
    | cons tn rest ih =>
      rw [List.foldl_cons]
      rw [ih]
      exact insertOne_meta version db tn
  · rw [if_neg hg] at h
    exact Option.noConfusion h

/-- `set_best_chain` never touches the meta finalized row. -/
theorem set_best_chain_meta {db d : DB} {nb : Bytes} {fuel : Nat}
    (h : set_best_chain db nb fuel = some (.ok d)) :
    d.metaFinalized = db.metaFinalized := by
  unfold set_best_chain at h
  rcases hmb : db.metaBest with _ | cur <;> simp only [hmb] at h
  · simp at h
  · rcases hbi : findBlock db nb with _ | binc <;>
      rcases hbr : findBlock db cur with _ | bret <;> simp only [hbi, hbr] at h
    · rw [← Except.ok.inj (Option.some.inj h)]
    · rw [← Except.ok.inj (Option.some.inj h)]
    · rw [← Except.ok.inj (Option.some.inj h)]
    · rcases hrows : sbcRows db nb cur fuel
          ⟨none, none, (binc.number : Int) + 1, (bret.number : Int) + 1⟩ with _ | rows <;>
        simp only [hrows] at h
      · exact Option.noConfusion h
      · rw [← Except.ok.inj (Option.some.inj h)]

/-- `insert` (through its transaction wrapper) never touches the meta
finalized row, whether it succeeds or rolls back. -/
theorem insertRun_meta {decode : Bytes → Option Header} {hashFn : Bytes → Bytes}
    {db d : DB} {hdrBytes : Bytes} {isNewBest : Bool} {body : List Bytes} {fuel : Nat}
    {err : Option InsertError}
    (h : insertRun decode hashFn db hdrBytes isNewBest body fuel = some (d, err)) :
    d.metaFinalized = db.metaFinalized := by
  unfold insertRun at h
  rcases hins : insert_block decode hashFn db hdrBytes isNewBest body fuel
      with _ | res <;> simp only [hins] at h
  · exact Option.noConfusion h
  rcases res with e | d1
  · simp only at h
    cases h
    rfl
  · simp only at h
    cases h
    unfold insert_block at hins
    rcases hdec : decode hdrBytes with _ | hdr <;> simp only [hdec] at hins
    · simp at hins
    by_cases hdup : hasBlock db (hashFn hdrBytes)
    · rw [if_pos hdup] at hins; simp at hins
    rw [if_neg hdup] at hins
    by_cases hpar : ¬ hasBlock db hdr.parentHash
    · rw [if_pos hpar] at hins; simp at hins
    rw [if_neg hpar] at hins
    by_cases hbig : 2 ^ 63 ≤ hdr.number
    · rw [if_pos hbig] at hins; exact Option.noConfusion hins
    rw [if_neg hbig] at hins
    by_cases hnb : isNewBest = true
    · rw [if_pos hnb] at hins
      rcases hfin : db.metaFinalized with _ | fin <;> simp only [hfin] at hins
      · simp at hins
      by_cases hle : hdr.number ≤ fin
      · rw [if_pos hle] at hins; simp at hins
      rw [if_neg hle] at hins
      rcases hsbc : set_best_chain
          { blocks := db.blocks ++ [⟨hashFn hdrBytes, some hdr.parentHash,
              some hdr.stateRoot, hdr.number, hdrBytes, some false, none⟩],
            blocksBody := db.blocksBody ++
              (body.enum.map fun p => ⟨hashFn hdrBytes, p.1, p.2⟩),
            trieNode := db.trieNode, trieNodeChild := db.trieNodeChild,
            trieNodeStorage := db.trieNodeStorage, metaBest := db.metaBest,
            metaFinalized := some fin, babeSlotsPerEpoch := db.babeSlotsPerEpoch,
            babeFinalizedEpoch := db.babeFinalizedEpoch,
            babeFinalizedNextEpoch := db.babeFinalizedNextEpoch,
            auraSlotDuration := db.auraSlotDuration, grandpaSetId := db.grandpaSetId,
            grandpaScheduledTarget := db.grandpaScheduledTarget,
            grandpaTriggered := db.grandpaTriggered,
            grandpaScheduled := db.grandpaScheduled,
            auraAuthorities := db.auraAuthorities }
          (hashFn hdrBytes) fuel with _ | res2 <;> simp only [hsbc] at hins
      · exact Option.noConfusion hins
      rcases res2 with e | d2
      · simp at hins
      · simp only [Option.some.injEq, Except.ok.injEq] at hins
        subst hins
        exact set_best_chain_meta hsbc
    · rw [if_neg hnb] at hins
      simp only [Option.some.injEq, Except.ok.injEq] at hins
      subst hins
      rfl

/-- The per-height finalization loop only touches the consensus meta rows, not
`finalized` itself. -/
theorem setFinalizedLoop_meta {dec : Bytes → Option Header} {count : Nat} :
    ∀ {height : Nat} {db d : DB},
      setFinalizedLoop dec db count height = some (.ok d) →
      d.metaFinalized = db.metaFinalized := by
  induction count with
  | zero =>
    intro height db d h
    simp only [setFinalizedLoop] at h
    cases h
    rfl
  | succ n ih =>
    intro height db d h
    simp only [setFinalizedLoop] at h
    rcases hh : (blockHashesByNumber db height).head? with _ | bh <;> simp only [hh] at h
    · simp at h
    rcases hhb : blockHeaderOf db bh with _ | hb <;> simp only [hhb] at h
    · simp at h
    rcases hdec : dec hb with _ | hdr <;> simp only [hdec] at h
    · simp at h
    rcases hba : babeAdvance db hdr with _ | res <;> simp only [hba] at h
    · exact Option.noConfusion h
    rcases res with e | db1
    · simp at h
    simp only at h
    rcases hga : grandpaAdvance db1 hdr with _ | db2 <;> simp only [hga] at h
    · exact Option.noConfusion h
    rw [ih h, grandpaAdvance_metaFinalized hga, babeAdvance_metaFinalized hba]

/-- `purge_block` never touches the meta rows. -/
theorem purge_block_meta {db d : DB} {bh : Bytes} {fuel : Nat}
    (h : purge_block db bh fuel = some (.ok d)) :
    d.metaFinalized = db.metaFinalized := by
  unfold purge_block at h
  rcases hs : purge_block_storage db bh fuel with _ | res <;> simp only [hs] at h
  · exact Option.noConfusion h
  rcases res with e | d1
  · simp at h
  simp only [Option.some.injEq, Except.ok.injEq] at h
  subst h
  unfold purge_block_storage at hs
  rcases hb : findBlock db bh with _ | b <;> simp only [hb] at hs
  · simp at hs
  rcases hrt : b.stateTrieRoot with _ | root <;> simp only [hrt] at hs
  · simp at hs
  rcases hcl : purgeClosure { db with blocks := db.blocks.map fun bb =>
        if bb.hash = bh then { bb with stateTrieRoot := none } else bb }
      fuel (if (findTrieNode { db with blocks := db.blocks.map fun bb =>
          if bb.hash = bh then { bb with stateTrieRoot := none } else bb } root).isSome
        ∧ ¬ (({ db with blocks := db.blocks.map fun bb =>
            if bb.hash = bh then { bb with stateTrieRoot := none } else bb } : DB).blocks.any
              fun bb => ¬(bb.hash = bh) ∧ bb.stateTrieRoot = some root)
        ∧ ¬ (({ db with blocks := db.blocks.map fun bb =>
            if bb.hash = bh then { bb with stateTrieRoot := none } else bb } : DB).trieNodeStorage.any
              fun s => s.trieRootRef = some root)
        then [root] else []) [] with _ | dels <;> simp only [hcl] at hs
  · exact Option.noConfusion hs
  simp only [Option.some.injEq, Except.ok.injEq] at hs
  subst hs
  rfl

/-- The orphan-purging loop never touches the meta rows. -/
theorem purgeLoop_meta {fuel : Nat} : ∀ {hs : List Bytes} {db d : DB},
    purgeLoop fuel hs db = some (.ok d) → d.metaFinalized = db.metaFinalized := by
  intro hs
  induction hs with
  | nil =>
    intro db d h
    simp only [purgeLoop] at h
    cases h
    rfl
  | cons bh rest ih =>
    intro db d h
    simp only [purgeLoop] at h
    rcases hp : purge_block db bh fuel with _ | res <;> simp only [hp] at h
    · exact Option.noConfusion h
    rcases res with e | d1
    · simp at h
    simp only at h
    rw [ih h, purge_block_meta hp]

/-- `purge_finality_orphans` never touches the meta rows. -/
theorem purge_finality_orphans_meta {db d : DB} {fuel : Nat}
    (h : purge_finality_orphans db fuel = some (.ok d)) :
    d.metaFinalized = db.metaFinalized := by
  unfold purge_finality_orphans at h
  rcases hf : db.metaFinalized with _ | fin <;> simp only [hf] at h
  · simp at h
  rw [purgeLoop_meta h, hf]

/-- A finalized-at-1 variant of `genesisDupDB` for the finality witnesses. -/
def finDB : DB := { genesisDupDB with metaFinalized := some 1 }

/-- A finalized-at-5 variant of `genesisDupDB` for the finality witnesses. -/
def fin5DB : DB := { genesisDupDB with metaFinalized := some 5 }

/-- C5: the finalized number never decreases: `set_finalized` rejects an
absent target with `UnknownBlock`, is a no-op success when the target's number
equals the current finalized number, rolls back with `RevertForbidden` when it
is lower, and on success only raises the number; and every other
state-changing operation (`insert_trie_nodes`, `insert`,
`purge_finality_orphans`) leaves the `finalized` meta row untouched. -/
theorem C5_finality_monotonic (dec : Bytes → Option Header) (db : DB) (target : Bytes) :
    (blockHeaderOf db target = none →
      set_finalized dec db target = some (.error .UnknownBlock))
    ∧ (∀ hb hdr cur, blockHeaderOf db target = some hb → dec hb = some hdr →
        db.metaFinalized = some cur →
        (hdr.number = cur → set_finalized dec db target = some (.ok db))
        ∧ (hdr.number < cur →
            setFinalizedRun dec db target = some (db, some .RevertForbidden)))
    ∧ (∀ d cur cur', set_finalized dec db target = some (.ok d) →
        db.metaFinalized = some cur → d.metaFinalized = some cur' → cur ≤ cur')
    ∧ (∀ batch version d, insert_trie_nodes db batch version = some d →
        d.metaFinalized = db.metaFinalized)
    ∧ (∀ dec2 hashFn hdrBytes isNewBest body fuel d err,
        insertRun dec2 hashFn db hdrBytes isNewBest body fuel = some (d, err) →
        d.metaFinalized = db.metaFinalized)
    ∧ (∀ fuel d, purge_finality_orphans db fuel = some (.ok d) →
        d.metaFinalized = db.metaFinalized) := by
  refine ⟨?_, ?_, ?_, fun _ _ _ h => insert_trie_nodes_meta h,
    fun _ _ _ _ _ _ _ _ h => insertRun_meta h,
    fun _ _ h => purge_finality_orphans_meta h⟩
  · intro hnone
    unfold set_finalized
    rw [hnone]
  · intro hb hdr cur hhb hdec hmf
    constructor
    · intro heq
      unfold set_finalized
      simp only [hhb, hdec, hmf]
      rw [if_pos heq]
    · intro hlt
      have hsf : set_finalized dec db target = some (.error .RevertForbidden) := by
        unfold set_finalized
        simp only [hhb, hdec, hmf]
        rw [if_neg (by omega), if_pos hlt]
      unfold setFinalizedRun
      rw [hsf]
  · intro d cur cur' hsf hmf hmf'
    unfold set_finalized at hsf
    rcases hhb : blockHeaderOf db target with _ | hb <;> simp only [hhb] at hsf
    · simp at hsf
    rcases hdec : dec hb with _ | hdr <;> simp only [hdec] at hsf
    · simp at hsf
    rcases hmf0 : db.metaFinalized with _ | cur0 <;> simp only [hmf0] at hsf
    · simp at hsf
    have hcc : cur0 = cur := by rw [hmf0] at hmf; exact Option.some.inj hmf
    subst hcc
    by_cases heq : hdr.number = cur0
    · rw [if_pos heq] at hsf
      simp only [Option.some.injEq, Except.ok.injEq] at hsf
      subst hsf
      rw [hmf0] at hmf'
      cases Option.some.inj hmf'
      exact le_refl _
    · rw [if_neg heq] at hsf
      by_cases hlt : hdr.number < cur0
      · rw [if_pos hlt] at hsf; simp at hsf
      · rw [if_neg hlt] at hsf
        have hd := setFinalizedLoop_meta hsf
        rw [hmf'] at hd
        have hce : cur' = hdr.number := Option.some.inj hd
        omega

/-- Witness for C5 at concrete stores: an absent target, the equal-number
no-op, the rollback on a lower target, and the monotone success. -/
theorem C5_finality_monotonic_witness :
    set_finalized wDecode genesisDB [9, 9] = some (.error .UnknownBlock)
    ∧ set_finalized wDecode finDB [200, 1] = some (.ok finDB)
    ∧ setFinalizedRun wDecode fin5DB [200, 1] = some (fin5DB, some .RevertForbidden)
    ∧ (0 : Nat) ≤ 1 := by
  refine ⟨(C5_finality_monotonic wDecode genesisDB [9, 9]).1 rfl, ?_, ?_, ?_⟩
  · exact ((C5_finality_monotonic wDecode finDB [200, 1]).2.1
      [1] ⟨1, [0], [42], none, none, []⟩ 1 rfl rfl rfl).1 rfl
  · exact ((C5_finality_monotonic wDecode fin5DB [200, 1]).2.1
      [1] ⟨1, [0], [42], none, none, []⟩ 5 rfl rfl rfl).2 (by decide)
  · exact (C5_finality_monotonic wDecode genesisDupDB [200, 1]).2.2.1
      finDB 0 1 rfl rfl rfl

/-- A store with two blocks at the finalized height 1: the canonical `[6]` and
the non-canonical sibling `[5]` (header blob `[1]`). -/
def sibDB : DB :=
  { genesisDB with
    blocks := genesisDB.blocks ++
      [⟨[6], some [0], some [42], 1, [2], some true, none⟩,
       ⟨[5], some [0], some [43], 1, [1], some false, none⟩]
    metaBest := some [6]
    metaFinalized := some 1 }

/-- C10: `set_finalized` on any present block whose number equals the current
finalized number succeeds and leaves the database completely unchanged; only
the decoded number is inspected, never the hash, so a non-canonical sibling at
the finalized height is silently accepted as a no-op. -/
theorem C10_set_finalized_sibling_noop (dec : Bytes → Option Header)
    (db : DB) (target : Bytes) (hb : Bytes) (hdr : Header) (cur : Nat)
    (hhb : blockHeaderOf db target = some hb) (hdec : dec hb = some hdr)
    (hmf : db.metaFinalized = some cur) (heq : hdr.number = cur) :
    set_finalized dec db target = some (.ok db)
    ∧ setFinalizedRun dec db target = some (db, none) := by
  have h1 : set_finalized dec db target = some (.ok db) := by
    unfold set_finalized
    simp only [hhb, hdec, hmf]
    rw [if_pos heq]
  refine ⟨h1, ?_⟩
  unfold setFinalizedRun
  rw [h1]

/-- Witness for C10: finalizing the non-canonical sibling `[5]` at the already
finalized height is accepted and changes nothing. -/
theorem C10_set_finalized_sibling_noop_witness :
    set_finalized wDecode sibDB [5] = some (.ok sibDB)
    ∧ setFinalizedRun wDecode sibDB [5] = some (sibDB, none) :=
  C10_set_finalized_sibling_noop wDecode sibDB [5] [1]
    ⟨1, [0], [42], none, none, []⟩ 1 rfl rfl rfl rfl

/-- A store exhibiting trie-node sharing across siblings: the finalized best
block `[10]` (root `[20]`) and the stale sibling `[11]` (root `[21]`) both
point, through child index 1, at the shared node `[30]`. -/
def purgeDB : DB :=
  { blocks := [⟨[0], none, none, 0, [2], some true, none⟩,
      ⟨[10], some [0], some [20], 1, [4], some true, none⟩,
      ⟨[11], some [0], some [21], 1, [5], some false, none⟩]
    blocksBody := [⟨[11], 0, [7]⟩]
    trieNode := [⟨[20], []⟩, ⟨[21], []⟩, ⟨[30], []⟩]
    trieNodeChild := [⟨[20], 1, [30]⟩, ⟨[21], 1, [30]⟩]
    trieNodeStorage := [⟨[30], some [99], none, 0⟩]
    metaBest := some [10]
    metaFinalized := some 1
    babeSlotsPerEpoch := none
    babeFinalizedEpoch := none
    babeFinalizedNextEpoch := none
    auraSlotDuration := none
    grandpaSetId := none
    grandpaScheduledTarget := none
    grandpaTriggered := []
    grandpaScheduled := []
    auraAuthorities := [] }

/-- What `purge_finality_orphans` actually leaves of `purgeDB`: the orphan
`[11]`, its body and its root `[21]` are gone — but so is the shared node
`[30]`, even though the surviving block `[10]` still references it. -/
def purgedDB : DB :=
  { purgeDB with
    blocks := [⟨[0], none, none, 0, [2], some true, none⟩,
      ⟨[10], some [0], some [20], 1, [4], some true, none⟩]
    blocksBody := []
    trieNode := [⟨[20], []⟩] }

/-- C9: the pruner deletes the shared trie node `[30]` although the surviving
best block `[10]`'s state trie still reaches it (root `[20]`, child edge at
index 1): the recursive delete stops only at nodes that are themselves some
block's state root or a `trie_root_ref` target, never checking interior
sharing, so the surviving block's trie is left incomplete. -/
theorem C9_purge_deletes_shared_trie_node :
    purge_finality_orphans purgeDB 9 = some (.ok purgedDB)
    ∧ findBlock purgedDB [10] = some ⟨[10], some [0], some [20], 1, [4], some true, none⟩
    ∧ findChild purgedDB [20] 1 = some ⟨[20], 1, [30]⟩
    ∧ findTrieNode purgeDB [30] = some ⟨[30], []⟩
    ∧ findTrieNode purgedDB [30] = none :=
  ⟨rfl, rfl, rfl, rfl, rfl⟩

/-! ## `block_storage_closest_descendant_merkle_value` -/

/-- Outcome of the `closest_descendant` recursion: the branch was filtered out
by the `WHERE` clause (no terminal row at all), or a terminal row whose
`search_remain` is empty (`some []`) or NULL (`none`). -/
inductive CdTerm where
  | dead
  | row (nh : Option Bytes) (remain : Option Bytes)
deriving DecidableEq

/-- One recursive step of the `closest_descendant` CTE on a row with a
non-empty `search_remain` `n :: rest`: the `LEFT JOIN`s (the child edge
selected by the first nibble, the child's node row, and — only under a `0x10`
separator — a `trie_root_ref` storage row) followed by the verbatim `CASE`
arms; `none` means the `WHERE` clause dropped the row. -/
def cdStep (db : DB) (nh : Option Bytes) (n : Nat) (rest : Bytes) :
    Option (Option Bytes × Option Bytes) :=
  let child : Option ChildRow := nh.bind fun h => findChild db h n
  let tn : Option TrieNodeRow := child.bind fun c => findTrieNode db c.childHash
  let stref : Option Bytes :=
    if n = 16 then (nh.bind fun h => findStorage db h).bind (·.trieRootRef) else none
  match child, tn with
  | none, _ =>
    if n ≠ 16 then some (stref, some [])
    else if rest = [] then some (stref, none)
    else some (stref, some [])
  | some c, none =>
    if rest = [] then some (some c.childHash, some [])
    else some (some c.childHash, none)
  | some c, some row =>
    if row.partialKey.take rest.length = rest
        ∨ rest.take row.partialKey.length = row.partialKey
    then some (some c.childHash, some (rest.drop row.partialKey.length))
    else none

/-- The `closest_descendant` recursion run to its terminal row (empty or NULL
`search_remain`); fuel models the unbounded CTE recursion. -/
def cdRun (db : DB) : Nat → Option Bytes × Option Bytes → Option CdTerm
  | _, (nh, none) => some (.row nh none)
  | _, (nh, some []) => some (.row nh (some []))
  | 0, (_, some (_ :: _)) => none
  | fuel + 1, (nh, some (n :: rest)) =>
    match cdStep db nh n rest with
    | none => some .dead
    | some s => cdRun db fuel s

/-- The non-recursive arm of the CTE: the block's state root `LEFT JOIN`ed
with its node row, filtered by the partial-key/key prefix conditions. -/
def cdInit (db : DB) (b : BlockRow) (key : Bytes) :
    Option (Option Bytes × Option Bytes) :=
  match b.stateTrieRoot with
  | none => some (none, if key = [] then some [] else none)
  | some root =>
    match findTrieNode db root with
    | none => some (some root, if key = [] then some [] else none)
    | some row =>
      if row.partialKey.take key.length = key
          ∨ key.take row.partialKey.length = row.partialKey
      then some (some root, some (key.drop row.partialKey.length))
      else none

/-- The final `SELECT` and the Rust post-processing: a NULL `search_remain`
with a non-NULL `node_hash` is `IncompleteStorage`; otherwise the answer is
the terminal row's `node_hash` (NULL meaning no descendant).  A run that did
not reach a terminal row within the fuel is `none`. -/
def cdFinish : Option CdTerm → Option (Except StorageAccessError (Option Bytes))
  | none => none
  | some .dead => some (.ok none)
  | some (.row none none) => some (.ok none)
  | some (.row (some _) none) => some (.error .IncompleteStorage)
  | some (.row nh (some _)) => some (.ok nh)

/-- `SqliteFullDatabase::block_storage_closest_descendant_merkle_value`: both
nibble iterators are asserted `< 16` (a violation panics: `none`), the parent
trie paths are joined with `0x10` separators, and the recursive query runs
from the block's state root. -/
def block_storage_closest_descendant_merkle_value (db : DB) (fuel : Nat)
    (blockHash : Bytes) (parentTries : List Bytes) (key : Bytes) :
    Option (Except StorageAccessError (Option Bytes)) :=
  if (∀ t ∈ parentTries, ∀ n ∈ t, n < 16) ∧ (∀ n ∈ key, n < 16) then
    let keyVectored : Bytes := (parentTries.map (· ++ [16])).flatten ++ key
    match findBlock db blockHash with
    | none => some (.error .UnknownBlock)
    | some b =>
      match cdInit db b keyVectored with
      | none => some (.ok none)
      | some s => cdFinish (cdRun db fuel s)
  else none

/-! ## The specification-side closest-descendant denotation -/

/-- Modelled from the spec: below a node whose partial key was already
consumed, the Merkle value of the node whose full key is the shortest
prefix-extension of the remaining key — descend through the child edge of the
next nibble; if the remaining key is exhausted within the child's partial key
the child is the answer, on a mismatch there is no descendant. -/
def closestDescFrom (db : DB) : Nat → Bytes → Bytes → Option Bytes
  | _, h, [] => some h
  | 0, _, _ :: _ => none
  | fuel + 1, h, n :: rest =>
    match findChild db h n with
    | none => none
    | some c =>
      match findTrieNode db c.childHash with
      | none => none
      | some row =>
        if row.partialKey.take rest.length = rest then some c.childHash
        else if rest.take row.partialKey.length = row.partialKey
        then closestDescFrom db fuel c.childHash (rest.drop row.partialKey.length)
        else none

/-- Modelled from the spec: the closest descendant of `key` from a block's
state root, the root's own partial key treated like any other node's. -/
def closestDescSpec (db : DB) (b : BlockRow) (key : Bytes) : Option Bytes :=
  match b.stateTrieRoot with
  | none => none
  | some root =>
    match findTrieNode db root with
    | none => none
    | some row =>
      if row.partialKey.take key.length = key then some root
      else if key.take row.partialKey.length = row.partialKey
      then closestDescFrom db key.length root (key.drop row.partialKey.length)
      else none

/-- `closestDescFrom` does not depend on the fuel once it covers the key
length. -/
theorem closestDescFrom_fuel (db : DB) :
    ∀ {f f' : Nat} {h rest : Bytes}, rest.length ≤ f → rest.length ≤ f' →
      closestDescFrom db f h rest = closestDescFrom db f' h rest := by
  intro f
  induction f with
  | zero =>
    intro f' h rest hf _
    cases rest with
    | nil => cases f' <;> rfl
    | cons n rest => simp at hf
  | succ f ih =>
    intro f' h rest hf hf'
    cases rest with
    | nil => cases f' <;> rfl
    | cons n rest =>
      obtain ⟨f', rfl⟩ : ∃ g, f' = g + 1 :=
        ⟨f' - 1, by simp only [List.length_cons] at hf'; omega⟩
      rcases hch : findChild db h n with _ | c
      · simp [closestDescFrom, hch]
      · rcases htn : findTrieNode db c.childHash with _ | row
        · simp [closestDescFrom, hch, htn]
        · by_cases hd1 : row.partialKey.take rest.length = rest
          · simp [closestDescFrom, hch, htn, hd1]
          · by_cases hd2 : rest.take row.partialKey.length = row.partialKey
            · simp only [closestDescFrom, hch, htn, hd1, hd2, if_true, if_false]
              simp only [List.length_cons] at hf hf'
              have hdrop : (rest.drop row.partialKey.length).length ≤ rest.length :=
                by simp [List.length_drop]
              refine ih ?_ ?_ <;> omega
            · simp [closestDescFrom, hch, htn, hd1, hd2]

/-- `cdRun` is already at a terminal row when `search_remain` is empty. -/
theorem cdRun_nil (db : DB) (fuel : Nat) (nh : Option Bytes) :
    cdRun db fuel (nh, some []) = some (.row nh (some [])) := by
  cases fuel <;> rfl

/-- `cdRun` is already at a terminal row when `search_remain` is NULL. -/
theorem cdRun_none (db : DB) (fuel : Nat) (nh : Option Bytes) :
    cdRun db fuel (nh, none) = some (.row nh none) := by
  cases fuel <;> rfl

/-- On a completely present trie the `closest_descendant` recursion computes
exactly the spec's closest-descendant denotation. -/
theorem cdRun_correct (db : DB) :
    ∀ (fuel : Nat) (k : Bytes) (h : Bytes) (cf : Nat),
      completeFrom db cf h = true →
      (∀ n ∈ k, n < 16) →
      k.length ≤ fuel →
      cdFinish (cdRun db fuel (some h, some k)) =
        some (.ok (closestDescFrom db k.length h k)) := by
  intro fuel
  induction fuel with
  | zero =>
    intro k h cf _ _ hlen
    cases k with
    | nil => rfl
    | cons n rest => simp at hlen
  | succ fuel ih =>
    intro k h cf hcomp hnib hlen
    cases k with
    | nil => rw [cdRun_nil]; rfl
    | cons n rest =>
      obtain ⟨cf, rfl⟩ : ∃ g, cf = g + 1 := by
        cases cf with
        | zero => simp [completeFrom] at hcomp
        | succ g => exact ⟨g, rfl⟩
      have hn16 : n ≠ 16 := by have := hnib n (by simp); omega
      rcases hch : findChild db h n with _ | c
      · have hstep : cdStep db (some h) n rest = some (none, some []) := by
          simp only [cdStep, Option.some_bind, hch, Option.none_bind]
          rw [if_pos hn16, if_neg hn16]
        simp only [cdRun, hstep, cdRun_nil]
        have hrhs : closestDescFrom db (n :: rest).length h (n :: rest) = none := by
          simp only [List.length_cons, closestDescFrom, hch]
        rw [hrhs]
        rfl
      · have hcc : completeFrom db cf c.childHash = true :=
          (completeFrom_succ hcomp).2 c (findChild_mem_childRows hch)
        have hpres : (findTrieNode db c.childHash).isSome := by
          obtain ⟨g, rfl⟩ : ∃ g, cf = g + 1 := by
            cases cf with
            | zero => simp [completeFrom] at hcc
            | succ g => exact ⟨g, rfl⟩
          exact (completeFrom_succ hcc).1
        obtain ⟨row, hrow⟩ := Option.isSome_iff_exists.mp hpres
        by_cases hd1 : row.partialKey.take rest.length = rest
        · have hstep : cdStep db (some h) n rest =
              some (some c.childHash, some (rest.drop row.partialKey.length)) := by
            simp only [cdStep, Option.some_bind, hch, hrow]
            rw [if_pos (Or.inl hd1)]
          have hrl : rest.length ≤ row.partialKey.length := by
            have := congrArg List.length hd1
            simp only [List.length_take] at this
            omega
          have hdrop : rest.drop row.partialKey.length = [] :=
            List.drop_eq_nil_of_le hrl
          simp only [cdRun, hstep, hdrop, cdRun_nil]
          have hrhs : closestDescFrom db (n :: rest).length h (n :: rest) =
              some c.childHash := by
            simp only [List.length_cons, closestDescFrom, hch, hrow, hd1, if_true]
          rw [hrhs]
          rfl
        · by_cases hd2 : rest.take row.partialKey.length = row.partialKey
          · have hstep : cdStep db (some h) n rest =
                some (some c.childHash, some (rest.drop row.partialKey.length)) := by
              simp only [cdStep, Option.some_bind, hch, hrow]
              rw [if_pos (Or.inr hd2)]
            simp only [cdRun, hstep]
            have hlen2 : (rest.drop row.partialKey.length).length ≤ fuel := by
              simp only [List.length_cons] at hlen
              have : (rest.drop row.partialKey.length).length ≤ rest.length := by
                simp [List.length_drop]
              omega
            have hmain := ih (rest.drop row.partialKey.length) c.childHash cf hcc
              (fun m hm => hnib m (List.mem_cons_of_mem _ (List.mem_of_mem_drop hm)))
              hlen2
            rw [hmain]
            have hrhs : closestDescFrom db (n :: rest).length h (n :: rest) =
                closestDescFrom db rest.length c.childHash
                  (rest.drop row.partialKey.length) := by
              simp only [List.length_cons, closestDescFrom, hch, hrow, hd1, hd2,
                if_true, if_false]
            rw [hrhs]
            exact congrArg (fun o => some (Except.ok o))
              (closestDescFrom_fuel db (le_refl _) (by simp [List.length_drop]))
          · have hstep : cdStep db (some h) n rest = none := by
              simp only [cdStep, Option.some_bind, hch, hrow]
              rw [if_neg (by exact fun hcon => hcon.elim hd1 hd2)]
            simp only [cdRun, hstep]
            have hrhs : closestDescFrom db (n :: rest).length h (n :: rest) = none := by
              simp only [List.length_cons, closestDescFrom, hch, hrow, hd1, hd2,
                if_false]
            rw [hrhs]
            rfl

/-- A store whose block `[8]` has root `[40]` (partial key empty) with a child
edge at nibble 5 to `[41]` — but `[41]`'s own `trie_node` row is absent. -/
def cdDB : DB :=
  { blocks := [⟨[8], none, some [40], 0, [2], some true, none⟩]
    blocksBody := []
    trieNode := [⟨[40], []⟩]
    trieNodeChild := [⟨[40], 5, [41]⟩]
    trieNodeStorage := []
    metaBest := some [8]
    metaFinalized := some 0
    babeSlotsPerEpoch := none
    babeFinalizedEpoch := none
    babeFinalizedNextEpoch := none
    auraSlotDuration := none
    grandpaSetId := none
    grandpaScheduledTarget := none
    grandpaTriggered := []
    grandpaScheduled := []
    auraAuthorities := [] }

/-- Counterexample to C3 as stated: with the child's row absent and the search
key `[5, 7]` reaching past the child edge (`[41]`'s Merkle value is known from
the edge, and in the intended trie its partial key `[7]` would make the key
end within it), the operation answers `IncompleteStorage` — not the Merkle
value `[41]` the claim promises whenever the key is exhausted within a node's
partial key. -/
theorem C3_closest_descendant_absent_row_not_returned :
    block_storage_closest_descendant_merkle_value cdDB 9 [8] [] [5, 7]
      = some (.error .IncompleteStorage)
    ∧ block_storage_closest_descendant_merkle_value cdDB 9 [8] [] [5, 7]
      ≠ some (.ok (some [41])) := by
  refine ⟨rfl, fun hcon => ?_⟩
  rw [show block_storage_closest_descendant_merkle_value cdDB 9 [8] [] [5, 7]
      = some (.error .IncompleteStorage) from rfl] at hcon
  exact Except.noConfusion (Option.some.inj hcon)

/-- C3 (amended): `UnknownBlock` for an absent block; on a completely present
state trie the operation returns exactly the Merkle value of the node whose
full key is the shortest prefix-extension of the search key (`none` when no
node extends it); and when a child's row is absent from `trie_node` its Merkle
value — known from the parent's child edge — is returned only when the search
key ends exactly at that edge (no nibble remains past it); with at least one
nibble remaining the step produces a NULL `search_remain`, which the final
`SELECT` reports as `IncompleteStorage`. -/
theorem C3_closest_descendant_correctness (db : DB) (fuel : Nat) (bh : Bytes)
    (key : Bytes) :
    ((∀ n ∈ key, n < 16) → findBlock db bh = none →
      block_storage_closest_descendant_merkle_value db fuel bh [] key
        = some (.error .UnknownBlock))
    ∧ (∀ b root cf, (∀ n ∈ key, n < 16) → key.length ≤ fuel →
        findBlock db bh = some b → b.stateTrieRoot = some root →
        completeFrom db cf root = true →
        block_storage_closest_descendant_merkle_value db fuel bh [] key
          = some (.ok (closestDescSpec db b key)))
    ∧ (∀ h n rest c, findChild db h n = some c →
        findTrieNode db c.childHash = none → n ≠ 16 →
        cdStep db (some h) n rest
          = some (some c.childHash, if rest = [] then some [] else none))
    ∧ (∀ mv, cdFinish (some (.row (some mv) (some []))) = some (.ok (some mv))
        ∧ cdFinish (some (.row (some mv) none)) = some (.error .IncompleteStorage)) := by
  refine ⟨?_, ?_, ?_, fun mv => ⟨rfl, rfl⟩⟩
  · intro hnib hfb
    unfold block_storage_closest_descendant_merkle_value
    rw [if_pos ⟨fun t ht => absurd ht (List.not_mem_nil t), hnib⟩]
    simp only [hfb]
  · intro b root cf hnib hlen hfb hroot hcomp
    unfold block_storage_closest_descendant_merkle_value
    rw [if_pos ⟨fun t ht => absurd ht (List.not_mem_nil t), hnib⟩]
    simp only [hfb, List.map_nil, List.flatten_nil, List.nil_append]
    obtain ⟨cf, rfl⟩ : ∃ g, cf = g + 1 := by
      cases cf with
      | zero => simp [completeFrom] at hcomp
      | succ g => exact ⟨g, rfl⟩
    obtain ⟨row, hrow⟩ := Option.isSome_iff_exists.mp (completeFrom_succ hcomp).1
    have hinit : cdInit db b key = (match findTrieNode db root with
        | none => some (some root, if key = [] then some [] else none)
        | some row =>
          if row.partialKey.take key.length = key
              ∨ key.take row.partialKey.length = row.partialKey
          then some (some root, some (key.drop row.partialKey.length))
          else none) := by
      unfold cdInit
      rw [hroot]
    rw [hinit]
    simp only [hrow]
    simp only [closestDescSpec, hroot, hrow]
    by_cases hd1 : row.partialKey.take key.length = key
    · rw [if_pos (Or.inl hd1), if_pos hd1]
      have hrl : key.length ≤ row.partialKey.length := by
        have := congrArg List.length hd1
        simp only [List.length_take] at this
        omega
      rw [List.drop_eq_nil_of_le hrl]
      show cdFinish (cdRun db fuel (some root, some [])) = some (Except.ok (some root))
      rw [cdRun_nil]
      rfl
    · by_cases hd2 : key.take row.partialKey.length = row.partialKey
      · rw [if_pos (Or.inr hd2), if_neg hd1, if_pos hd2]
        have hmain := cdRun_correct db fuel (key.drop row.partialKey.length) root
          (cf + 1) hcomp
          (fun m hm => hnib m (List.mem_of_mem_drop hm))
          (by have : (key.drop row.partialKey.length).length ≤ key.length := by
                simp [List.length_drop]
              omega)
        show cdFinish (cdRun db fuel
            (some root, some (key.drop row.partialKey.length))) = _
        rw [hmain]
        exact congrArg (fun o => some (Except.ok o))
          (closestDescFrom_fuel db (le_refl _) (by simp [List.length_drop]))
      · rw [if_neg (fun hcon => hcon.elim hd1 hd2), if_neg hd1, if_neg hd2]
  · intro h n rest c hch htn hn16
    simp only [cdStep, Option.some_bind, hch, htn]
    cases rest with
    | nil => rw [if_pos rfl]; rfl
    | cons m r => rw [if_neg (by simp)]; rfl

/-- Witness for C3 at concrete stores: an unknown block, and the exact
closest-descendant answer `[41]` on a fully present two-level trie. -/
def cdWitDB : DB :=
  { cdDB with
    trieNode := [⟨[40], [1]⟩, ⟨[41], [7]⟩]
    trieNodeChild := [⟨[40], 2, [41]⟩] }

theorem C3_closest_descendant_correctness_witness :
    block_storage_closest_descendant_merkle_value cdWitDB 9 [9, 9] [] [1, 2]
      = some (.error .UnknownBlock)
    ∧ block_storage_closest_descendant_merkle_value cdWitDB 9 [8] [] [1, 2]
      = some (.ok (some [41])) := by
  refine ⟨(C3_closest_descendant_correctness cdWitDB 9 [9, 9] [1, 2]).1
    (by decide) rfl, ?_⟩
  have h := (C3_closest_descendant_correctness cdWitDB 9 [8] [1, 2]).2.1
    ⟨[8], none, some [40], 0, [2], some true, none⟩ [40] 3
    (by decide) (by decide) rfl rfl (by decide)
  rw [h]
  rfl

/-! ## `block_storage_next_key` -/

/-- A row of the `next_key` recursive CTE. -/
structure NKRow where
  nodeHash : Option Bytes
  isBranch : Bool
  fullKey : Bytes
  remain : Option Bytes
deriving DecidableEq

/-- `trie_node_storage.value IS NULL AND trie_node_storage.trie_root_ref IS
NULL` for a node's storage row (`TRUE` when the row is absent): whether the
node is a pure branch. -/
def isBranchOf (db : DB) (h : Bytes) : Bool :=
  match findStorage db h with
  | none => true
  | some s => s.value.isNone && s.trieRootRef.isNone

/-- The non-recursive arm of `next_key`: the block's root row with the verbatim
`CASE` arms — note the root keeps its `node_hash` (and drops the first
`LENGTH(partial_key)` nibbles of `:key`!) whenever `:key` truncated to the
partial key's length is `<=` the partial key in blob order. -/
def nkInit (db : DB) (b : BlockRow) (key : Bytes) : NKRow :=
  match b.stateTrieRoot.bind (findTrieNode db) with
  | none => ⟨none, true, [], none⟩
  | some row =>
    if blobLe (key.take row.partialKey.length) row.partialKey
    then ⟨some row.hash, isBranchOf db row.hash, row.partialKey,
      some (key.drop row.partialKey.length)⟩
    else ⟨none, isBranchOf db row.hash, row.partialKey, some []⟩

/-- The children of `h` kept by the child join and the `trie_node_child_before`
anti-join: children at least the first searched nibble, with no other child
strictly between that nibble and them (for an empty `key_search_remain`: the
single smallest child). -/
def nkKept (db : DB) (h : Bytes) (r : Bytes) : List ChildRow :=
  (childRowsOf db h).filter fun c =>
    (decide (r = []) || decide (r.headI ≤ c.childNum)) &&
    !((childRowsOf db h).any fun cb =>
      decide (cb.childNum < c.childNum) &&
        (decide (r = []) || decide (r.headI < cb.childNum)))

/-- One expansion of a non-terminal `next_key` row (`node_hash` and
`key_search_remain` non-NULL): under a leading `0x10` separator the
`trie_root_ref` joins produce one row; otherwise each kept child produces one
row through the verbatim `CASE` arms, the `WHERE` clause dropping a child
whose partial key is strictly before the searched key.  (Child numbers are
nibbles, so a `0x10` separator never matches the child join.) -/
def nkExpand (db : DB) (h : Bytes) (fk : Bytes) (r : Bytes) : List NKRow :=
  if r ≠ [] ∧ r.headI = 16 then
    match findStorage db h with
    | some s =>
      if s.trieRootRef.isSome then
        match findTrieNode db h with
        | some tr =>
          if blobLe ((r.drop 1).take tr.partialKey.length) tr.partialKey then
            if (r.drop 1).take tr.partialKey.length = tr.partialKey
            then [⟨some h, isBranchOf db h, fk, some (r.drop (1 + tr.partialKey.length))⟩]
            else [⟨some h, isBranchOf db h, fk, some []⟩]
          else [⟨none, true, fk, none⟩]
        | none => [⟨none, true, fk, none⟩]
      else [⟨none, true, fk, none⟩]
    | none => [⟨none, true, fk, none⟩]
  else
    (nkKept db h r).filterMap fun c =>
      match findTrieNode db c.childHash with
      | none => some ⟨none, true, fk ++ [c.childNum], none⟩
      | some row =>
        let rest := r.drop 1
        let firstEq := r ≠ [] ∧ r.headI = c.childNum
        if firstEq ∧ blobLt row.partialKey (rest.take row.partialKey.length)
        then none
        else if firstEq ∧ rest.take row.partialKey.length = row.partialKey
        then some ⟨some row.hash, isBranchOf db row.hash,
          fk ++ c.childNum :: row.partialKey, some (r.drop (1 + row.partialKey.length))⟩
        else some ⟨some row.hash, isBranchOf db row.hash,
          fk ++ c.childNum :: row.partialKey, some []⟩

/-- The `next_key` recursion driven to a fixed point as a worklist: a row is
expanded when the `WHERE` clause of the recursive arm pulls it, collected when
the `terminal_next_key` filter keeps it, and silently dropped otherwise; fuel
models the unbounded CTE recursion. -/
def nkRun (db : DB) (skip : Bool) : Nat → List NKRow → List NKRow → Option (List NKRow)
  | _, [], acc => some acc
  | 0, _ :: _, _ => none
  | fuel + 1, row :: queue, acc =>
    match row.nodeHash, row.remain with
    | some h, some r =>
      if r ≠ [] ∨ (row.isBranch = true ∧ skip = true) then
        nkRun db skip fuel (queue ++ nkExpand db h row.fullKey r) acc
      else nkRun db skip fuel queue (acc ++ [row])
    | _, _ =>
      if row.remain.isNone ∨ (row.remain = some [] ∧ (skip = false ∨ row.isBranch = false))
      then nkRun db skip fuel queue (acc ++ [row])
      else nkRun db skip fuel queue acc

/-- The terminal row with the smallest `node_full_key` in blob order. -/
def nkMinRow : List NKRow → Option NKRow
  | [] => none
  | t :: rest =>
    match nkMinRow rest with
    | none => some t
    | some u => if blobLt u.fullKey t.fullKey then some u else some t

/-- The `terminal_next_key` projection of the chosen minimal row and the final
`SELECT`: the `:prefix` test is applied only to this single row — a NULL
output and a FALSE `incomplete_storage` when its full key misses the prefix. -/
def nkFinish (pfxN : Bytes) (terms : List NKRow) : Bool × Option Bytes :=
  match nkMinRow terms with
  | none => (false, none)
  | some t =>
    ((if t.fullKey.take pfxN.length = pfxN then t.remain.isNone else false),
     if t.nodeHash.isSome ∧ t.fullKey.take pfxN.length = pfxN
     then some t.fullKey else none)

/-- `SqliteFullDatabase::block_storage_next_key`: nibble iterators asserted
`< 16` (`none` on violation), parent-trie paths joined with `0x10` separators
and prepended to both the key and the prefix, `:skip_branches` the negation of
`branch_nodes`, and the parent-path prefix stripped from the answer. -/
def block_storage_next_key (db : DB) (fuel : Nat) (blockHash : Bytes)
    (parentTries : List Bytes) (key pfx : Bytes) (branchNodes : Bool) :
    Option (Except StorageAccessError (Option Bytes)) :=
  if (∀ t ∈ parentTries, ∀ n ∈ t, n < 16) ∧ (∀ n ∈ key, n < 16)
      ∧ (∀ n ∈ pfx, n < 16) then
    let ptn : Bytes := (parentTries.map (· ++ [16])).flatten
    match findBlock db blockHash with
    | none => some (.error .UnknownBlock)
    | some b =>
      match nkRun db (!branchNodes) fuel [nkInit db b (ptn ++ key)] [] with
      | none => none
      | some terms =>
        match nkFinish (ptn ++ pfx) terms with
        | (true, _) => some (.error .IncompleteStorage)
        | (false, out) => some (.ok (out.map fun nk => nk.drop ptn.length))
  else none

/-- A store whose trie holds the single value key `[1, 0]` (root `[60]` with
partial key `[1]`, child 0 to the valued leaf `[61]`). -/
def nkDB : DB :=
  { blocks := [⟨[8], none, some [60], 0, [2], some true, none⟩]
    blocksBody := []
    trieNode := [⟨[60], [1]⟩, ⟨[61], []⟩]
    trieNodeChild := [⟨[60], 0, [61]⟩]
    trieNodeStorage := [⟨[61], some [9, 9], none, 0⟩]
    metaBest := some [8]
    metaFinalized := some 0
    babeSlotsPerEpoch := none
    babeFinalizedEpoch := none
    babeFinalizedNextEpoch := none
    auraSlotDuration := none
    grandpaSetId := none
    grandpaScheduledTarget := none
    grandpaTriggered := []
    grandpaScheduled := []
    auraAuthorities := [] }

/-- `nkDB` with a flat two-leaf trie: root `[60]` (empty partial key), leaves
`[61]` at nibble 0 and `[62]` at nibble 1, both carrying values. -/
def nkDB2 : DB :=
  { nkDB with
    trieNode := [⟨[60], []⟩, ⟨[61], []⟩, ⟨[62], []⟩]
    trieNodeChild := [⟨[60], 0, [61]⟩, ⟨[60], 1, [62]⟩]
    trieNodeStorage := [⟨[61], some [9], none, 0⟩, ⟨[62], some [8], none, 0⟩] }

/-- C2 fails on both stores: on `nkDB` the key `[0, 5]` is below every key of
the trie, yet the lookup answers `none` with either `branch_nodes` value — the
root arm keeps the root whenever `key` truncated to the partial key's length
is `<=` it, wrongly dropping `LENGTH(partial_key)` nibbles of the key (`[0,5]`
becomes `[5]`, skipping child 0); the same store's `block_storage_get` proves
the value key `[1, 0] >= [0, 5]` exists.  On `nkDB2` with prefix `[1]` the
answer is `none` although the valued key `[1]` matches: the prefix is tested
only on the row with the globally minimal full key (`[0]`). -/
theorem C2_next_key_misses_keys :
    block_storage_next_key nkDB 20 [8] [] [0, 5] [] true = some (.ok none)
    ∧ block_storage_next_key nkDB 20 [8] [] [0, 5] [] false = some (.ok none)
    ∧ block_storage_get nkDB 20 [8] [] [1, 0] = some (.ok (some ([9, 9], 0)))
    ∧ blobLe [0, 5] [1, 0] = true
    ∧ block_storage_next_key nkDB2 20 [8] [] [] [1] true = some (.ok none)
    ∧ block_storage_get nkDB2 20 [8] [] [1] = some (.ok (some ([8], 0))) :=
  ⟨rfl, rfl, rfl, rfl, rfl, rfl⟩

/-! ## C6: the best-chain reassignment -/

/-- A store with the best chain `[0] (0) → [10] (1) → [11] (2, best)` and
finalized number 0. -/
def reorgDB : DB :=
  { blocks := [⟨[0], none, none, 0, [0], some true, none⟩,
      ⟨[10], some [0], some [42], 1, [4], some true, none⟩,
      ⟨[11], some [10], some [43], 2, [5], some true, none⟩]
    blocksBody := []
    trieNode := []
    trieNodeChild := []
    trieNodeStorage := []
    metaBest := some [11]
    metaFinalized := some 0
    babeSlotsPerEpoch := none
    babeFinalizedEpoch := none
    babeFinalizedNextEpoch := none
    auraSlotDuration := none
    grandpaSetId := none
    grandpaScheduledTarget := none
    grandpaTriggered := []
    grandpaScheduled := []
    auraAuthorities := [] }

/-- What inserting the lower fork block `[200, 1]` (header `[1]`, number 1,
parent `[0]`) as new best actually leaves: the old tip `[11]` is retracted
with a NULL flag (the include side had not started when its row was
generated), `[10]` gets false, and the new block is best. -/
def reorgOutDB : DB :=
  { reorgDB with
    blocks := [⟨[0], none, none, 0, [0], some true, none⟩,
      ⟨[10], some [0], some [42], 1, [4], some false, none⟩,
      ⟨[11], some [10], some [43], 2, [5], none, none⟩,
      ⟨[200, 1], some [0], some [42], 1, [1], some true, none⟩]
    metaBest := some [200, 1] }

/-- Counterexample to C6 as stated: after a successful reorg to a lower
height, the retracted tip `[11]` is off the new best path but its
`is_best_chain` is NULL, not false. -/
theorem C6_reorg_leaves_null_flag :
    insertRun wDecode wHashFn reorgDB [1] true [] 9 = some (reorgOutDB, none)
    ∧ findBlock reorgOutDB [11] = some ⟨[11], some [10], some [43], 2, [5], none, none⟩
    ∧ (⟨[11], some [10], some [43], 2, [5], none, none⟩ : BlockRow).isBestChain
      ≠ some false := by
  refine ⟨?_, rfl, fun hcon => Option.noConfusion hcon⟩
  rfl

/-- The hashes on the parent-pointer chain of `nb` (as the `changes` walk
follows it: `COALESCE(parent_hash, :anchor)` wraps a missing link back to the
anchor `nb`, so the closure stays on the chain). -/
inductive Anc (db : DB) (nb : Bytes) : Bytes → Prop
  | self : Anc db nb nb
  | step (v : Bytes) : Anc db nb v → Anc db nb (coalesceParent db (some v) nb)

/-- The flag update preserves every column except `is_best_chain`. -/
theorem applyChanges_fields (rows : List ChangeRow) (b : BlockRow) :
    (applyChanges rows b).hash = b.hash
    ∧ (applyChanges rows b).parentHash = b.parentHash := by
  unfold applyChanges
  generalize (rows.find? _ : Option ChangeRow) = o
  cases o <;> exact ⟨rfl, rfl⟩

/-- Looking a block up after the flag update finds the updated row. -/
theorem findBlock_applyChanges (db : DB) (rows : List ChangeRow) (bs : List BlockRow)
    (v : Bytes) :
    findBlock { db with blocks := bs.map (applyChanges rows) } v
      = ((bs.find? fun b => b.hash = v).map (applyChanges rows)) := by
  show (bs.map (applyChanges rows)).find? (fun b => decide (b.hash = v)) = _
  rw [List.find?_map]
  have hp : ((fun b => decide (b.hash = v)) ∘ applyChanges rows)
      = fun b => decide (b.hash = v) := by
    funext b
    simp [Function.comp, (applyChanges_fields rows b).1]
  rw [hp]

/-- `coalesceParent` is unaffected by the flag update. -/
theorem coalesceParent_applyChanges (db : DB) (rows : List ChangeRow)
    (bs : List BlockRow) (v : Option Bytes) (a : Bytes) :
    coalesceParent { db with blocks := bs.map (applyChanges rows) } v a
      = coalesceParent { db with blocks := bs } v a := by
  rcases v with _ | w
  · rfl
  · unfold coalesceParent
    simp only [Option.some_bind]
    rw [findBlock_applyChanges db rows bs w]
    unfold findBlock
    rcases hf : bs.find? fun b => b.hash = w with _ | b <;> simp only [hf]
    · rfl
    · show (match (applyChanges rows b).parentHash with
        | some p => p | none => a)
        = (match b.parentHash with | some p => p | none => a)
      rw [(applyChanges_fields rows b).2]

/-- `Anc` is likewise unaffected by the flag update. -/
theorem anc_applyChanges (db : DB) (rows : List ChangeRow) (bs : List BlockRow)
    (nb v : Bytes)
    (h : Anc { db with blocks := bs } nb v) :
    Anc { db with blocks := bs.map (applyChanges rows) } nb v := by
  induction h with
  | self => exact .self
  | step w _ ih =>
    have := Anc.step w ih
    rwa [coalesceParent_applyChanges] at this

/-- If no stored parent pointer names `nb` and the walk anchor differs from
it, the retract side of the walk never reaches `nb`. -/
theorem anc_ne {db : DB} {cur nb : Bytes}
    (hfresh : ∀ b ∈ db.blocks, ¬ b.parentHash = some nb) (hc : cur ≠ nb) :
    ∀ v, Anc db cur v → v ≠ nb := by
  intro v h
  induction h with
  | self => exact hc
  | step w _ _ =>
    unfold coalesceParent
    simp only [Option.some_bind]
    rcases hfb : findBlock db w with _ | b <;> simp only [hfb]
    · exact hc
    · rcases hp : b.parentHash with _ | p <;> simp only [hp]
      · exact hc
      · intro he
        exact hfresh b (List.mem_of_find?_eq_some hfb) (by rw [hp, he])

/-- The coalesced parent of an in-chain pointer stays in the chain. -/
theorem anc_coalesce {db : DB} {nb : Bytes} {o : Option Bytes}
    (h : ∀ v, o = some v → Anc db nb v) :
    Anc db nb (coalesceParent db o nb) := by
  rcases o with _ | w
  · show Anc db nb (coalesceParent db none nb)
    unfold coalesceParent
    exact .self
  · exact .step w (h w rfl)

/-- A successful `changes` recursion always lists its starting row first. -/
theorem sbcRows_shape (db : DB) (nb cur : Bytes) :
    ∀ (fuel : Nat) (r : ChangeRow) (rows : List ChangeRow),
      sbcRows db nb cur fuel r = some rows → ∃ rest, rows = r :: rest := by
  intro fuel r rows h
  cases fuel with
  | zero =>
    unfold sbcRows at h
    by_cases hg : sbcGuard db nb cur r
    · rw [if_pos hg] at h; exact Option.noConfusion h
    · rw [if_neg hg] at h; exact ⟨[], (Option.some.inj h).symm⟩
  | succ fuel =>
    unfold sbcRows at h
    by_cases hg : sbcGuard db nb cur r
    · rw [if_pos hg] at h
      rcases hrec : sbcRows db nb cur fuel (sbcStep db nb cur r) with _ | rows'
      · rw [hrec] at h; exact Option.noConfusion h
      · rw [hrec] at h
        exact ⟨rows', (Option.some.inj h).symm⟩
    · rw [if_neg hg] at h; exact ⟨[], (Option.some.inj h).symm⟩

/-- Soundness of the walk's pointers: starting from in-chain (or not yet
started) pointers, every generated row's include pointer lies on the new
best block's chain and every retract pointer on the old one. -/
theorem sbcRows_sound (db : DB) (nb cur : Bytes) :
    ∀ (fuel : Nat) (r : ChangeRow) (rows : List ChangeRow),
      sbcRows db nb cur fuel r = some rows →
      (∀ v, r.inc = some v → Anc db nb v) →
      (∀ v, r.ret = some v → Anc db cur v) →
      ∀ t ∈ rows, (∀ v, t.inc = some v → Anc db nb v)
        ∧ (∀ v, t.ret = some v → Anc db cur v) := by
  intro fuel
  induction fuel with
  | zero =>
    intro r rows h hi hr t ht
    unfold sbcRows at h
    by_cases hg : sbcGuard db nb cur r
    · rw [if_pos hg] at h; exact Option.noConfusion h
    · rw [if_neg hg] at h
      cases Option.some.inj h
      rcases List.mem_singleton.mp ht with rfl
      exact ⟨hi, hr⟩
  | succ fuel ih =>
    intro r rows h hi hr t ht
    unfold sbcRows at h
    by_cases hg : sbcGuard db nb cur r
    · rw [if_pos hg] at h
      rcases hrec : sbcRows db nb cur fuel (sbcStep db nb cur r) with _ | rows'
      · rw [hrec] at h; exact Option.noConfusion h
      rw [hrec] at h
      cases Option.some.inj h
      rcases (List.mem_cons.mp ht) with rfl | ht'
      · exact ⟨hi, hr⟩
      refine ih (sbcStep db nb cur r) rows' hrec ?_ ?_ t ht'
      · intro v hv
        unfold sbcStep at hv
        by_cases hge : r.incNum ≥ r.retNum
        · simp only [if_pos hge] at hv
          cases Option.some.inj hv
          exact anc_coalesce hi
        · simp only [if_neg hge] at hv
          exact hi v hv
      · intro v hv
        unfold sbcStep at hv
        by_cases hge : r.retNum ≥ r.incNum
        · simp only [if_pos hge] at hv
          cases Option.some.inj hv
          exact anc_coalesce hr
        · simp only [if_neg hge] at hv
          exact hr v hv
    · rw [if_neg hg] at h
      cases Option.some.inj h
      rcases List.mem_singleton.mp ht with rfl
      exact ⟨hi, hr⟩

/-- A successful walk whose include side has not started yet eventually
starts it — at the new best block itself. -/
theorem sbcRows_inc_nb {db : DB} {nb cur : Bytes}
    (hfresh : ∀ b ∈ db.blocks, ¬ b.parentHash = some nb) (hc : cur ≠ nb) :
    ∀ (fuel : Nat) (r : ChangeRow) (rows : List ChangeRow),
      sbcRows db nb cur fuel r = some rows →
      r.inc = none →
      (∀ v, r.ret = some v → Anc db cur v) →
      ∃ t ∈ rows, t.inc = some nb := by
  intro fuel
  induction fuel with
  | zero =>
    intro r rows h hinc hr
    unfold sbcRows at h
    by_cases hg : sbcGuard db nb cur r
    · rw [if_pos hg] at h; exact Option.noConfusion h
    · exfalso
      unfold sbcGuard at hg
      push_neg at hg
      have h2 := hg.2
      rw [hinc] at h2
      have hl : coalesceParent db none nb = nb := rfl
      rw [hl] at h2
      exact anc_ne hfresh hc _ (anc_coalesce hr) h2.symm
  | succ fuel ih =>
    intro r rows h hinc hr
    unfold sbcRows at h
    by_cases hg : sbcGuard db nb cur r
    · rw [if_pos hg] at h
      rcases hrec : sbcRows db nb cur fuel (sbcStep db nb cur r) with _ | rows'
      · rw [hrec] at h; exact Option.noConfusion h
      rw [hrec] at h
      cases Option.some.inj h
      by_cases hge : r.incNum ≥ r.retNum
      · obtain ⟨rest, hshape⟩ := sbcRows_shape db nb cur fuel (sbcStep db nb cur r) rows' hrec
        refine ⟨sbcStep db nb cur r, List.mem_cons_of_mem _ (hshape ▸ List.mem_cons_self _ _), ?_⟩
        show (if r.incNum ≥ r.retNum then some (coalesceParent db r.inc nb)
          else r.inc) = some nb
        rw [if_pos hge, hinc]
        rfl
      · have hstepinc : (sbcStep db nb cur r).inc = none := by
          unfold sbcStep
          simp only [if_neg hge]
          exact hinc
        have hstepret : ∀ v, (sbcStep db nb cur r).ret = some v → Anc db cur v := by
          intro v hv
          unfold sbcStep at hv
          have hge2 : r.retNum ≥ r.incNum := by omega
          simp only [if_pos hge2] at hv
          cases Option.some.inj hv
          exact anc_coalesce hr
        obtain ⟨t, ht, hti⟩ := ih (sbcStep db nb cur r) rows' hrec hstepinc hstepret
        exact ⟨t, List.mem_cons_of_mem _ ht, hti⟩
    · exfalso
      unfold sbcGuard at hg
      push_neg at hg
      have h2 := hg.2
      rw [hinc] at h2
      have hl : coalesceParent db none nb = nb := rfl
      rw [hl] at h2
      exact anc_ne hfresh hc _ (anc_coalesce hr) h2.symm

/-- `Anc` ignores the meta rows. -/
theorem anc_metaBest (db : DB) (m : Option Bytes) (nb v : Bytes)
    (h : Anc db nb v) : Anc { db with metaBest := m } nb v := by
  induction h with
  | self => exact .self
  | step w _ ih => exact Anc.step w ih

/-- A block ending with flag true was matched on the include side (or kept
its previous true flag). -/
theorem applyChanges_flag_true {rows : List ChangeRow} {b : BlockRow}
    (h : (applyChanges rows b).isBestChain = some true) :
    (∃ r ∈ rows, r.inc = some b.hash) ∨ b.isBestChain = some true := by
  unfold applyChanges at h
  rcases hf : rows.find? fun r => r.inc = some b.hash ∨ r.ret = some b.hash
    with _ | r <;> simp only [hf] at h
  · exact Or.inr h
  · rcases hri : r.inc with _ | x <;> rw [hri] at h
    · exact absurd h (by simp)
    · simp only [Option.map_some'] at h
      have hx : x = b.hash := of_decide_eq_true (Option.some.inj h)
      exact Or.inl ⟨r, List.mem_of_find?_eq_some hf, by rw [hri, hx]⟩

/-- A block ending with a NULL flag was matched on the retract side before
the include side started (or had a NULL flag already). -/
theorem applyChanges_flag_none {rows : List ChangeRow} {b : BlockRow}
    (h : (applyChanges rows b).isBestChain = none) :
    (∃ r ∈ rows, r.inc = none ∧ r.ret = some b.hash) ∨ b.isBestChain = none := by
  unfold applyChanges at h
  rcases hf : rows.find? fun r => r.inc = some b.hash ∨ r.ret = some b.hash
    with _ | r <;> simp only [hf] at h
  · exact Or.inr h
  · rcases hri : r.inc with _ | x <;> rw [hri] at h
    · have hdec := List.find?_some hf
      simp only [decide_eq_true_eq] at hdec
      rcases hdec with h1 | h2
      · rw [hri] at h1; exact absurd h1 (by simp)
      · exact Or.inl ⟨r, List.mem_of_find?_eq_some hf, hri, h2⟩
    · exact absurd h (by simp)

/-- A block matched on the include side and never on the retract side ends
with flag true. -/
theorem applyChanges_nb {rows : List ChangeRow} {b : BlockRow}
    (hex : ∃ r ∈ rows, r.inc = some b.hash)
    (hret : ∀ r ∈ rows, ¬ r.ret = some b.hash) :
    (applyChanges rows b).isBestChain = some true := by
  unfold applyChanges
  obtain ⟨r0, hr0, hr0i⟩ := hex
  have hfind : (rows.find? fun r => r.inc = some b.hash ∨ r.ret = some b.hash).isSome := by
    rw [List.find?_isSome]
    exact ⟨r0, hr0, by simp [hr0i]⟩
  obtain ⟨r, hf⟩ := Option.isSome_iff_exists.mp hfind
  have hmem := List.mem_of_find?_eq_some hf
  have hdec := List.find?_some hf
  simp only [decide_eq_true_eq] at hdec
  have hrinc : r.inc = some b.hash := by
    rcases hdec with h1 | h2
    · exact h1
    · exact absurd h2 (hret r hmem)
  simp only [hf]
  rw [hrinc]
  simp

/-- Purging one block keeps every other block row with its hash and flag
(only the purged block's row — and possibly its state root — changes). -/
theorem purge_block_frame {db d : DB} {bh : Bytes} {fuel : Nat}
    (h : purge_block db bh fuel = some (.ok d)) :
    d.metaBest = db.metaBest
    ∧ ∀ b ∈ db.blocks, ¬(b.hash = bh) →
        ∃ b' ∈ d.blocks, b'.hash = b.hash ∧ b'.isBestChain = b.isBestChain := by
  unfold purge_block at h
  rcases hs : purge_block_storage db bh fuel with _ | res <;> simp only [hs] at h
  · exact Option.noConfusion h
  rcases res with e | d1
  · simp at h
  simp only [Option.some.injEq, Except.ok.injEq] at h
  subst h
  unfold purge_block_storage at hs
  rcases hb : findBlock db bh with _ | brow <;> simp only [hb] at hs
  · simp at hs
  rcases hrt : brow.stateTrieRoot with _ | root <;> simp only [hrt] at hs
  · simp at hs
  rcases hcl : purgeClosure { db with blocks := db.blocks.map fun bb =>
        if bb.hash = bh then { bb with stateTrieRoot := none } else bb }
      fuel (if (findTrieNode { db with blocks := db.blocks.map fun bb =>
          if bb.hash = bh then { bb with stateTrieRoot := none } else bb } root).isSome
        ∧ ¬ (({ db with blocks := db.blocks.map fun bb =>
            if bb.hash = bh then { bb with stateTrieRoot := none } else bb } : DB).blocks.any
              fun bb => ¬(bb.hash = bh) ∧ bb.stateTrieRoot = some root)
        ∧ ¬ (({ db with blocks := db.blocks.map fun bb =>
            if bb.hash = bh then { bb with stateTrieRoot := none } else bb } : DB).trieNodeStorage.any
              fun s => s.trieRootRef = some root)
        then [root] else []) [] with _ | dels <;> simp only [hcl] at hs
  · exact Option.noConfusion hs
  simp only [Option.some.injEq, Except.ok.injEq] at hs
  subst hs
  refine ⟨rfl, ?_⟩
  intro b hbm hbne
  refine ⟨if b.hash = bh then { b with stateTrieRoot := none } else b, ?_, ?_, ?_⟩
  · show _ ∈ (db.blocks.map fun bb =>
      if bb.hash = bh then { bb with stateTrieRoot := none } else bb).filter _
    refine List.mem_filter.mpr ⟨List.mem_map_of_mem _ hbm, ?_⟩
    rw [if_neg hbne]
    simpa using hbne
  · rw [if_neg hbne]
  · rw [if_neg hbne]

/-- The orphan loop keeps every block whose hash is not in the purge list. -/
theorem purgeLoop_frame {fuel : Nat} : ∀ {hs : List Bytes} {db d : DB},
    purgeLoop fuel hs db = some (.ok d) →
    d.metaBest = db.metaBest
    ∧ ∀ b ∈ db.blocks, (∀ x ∈ hs, ¬(b.hash = x)) →
        ∃ b' ∈ d.blocks, b'.hash = b.hash ∧ b'.isBestChain = b.isBestChain := by
  intro hs
  induction hs with
  | nil =>
    intro db d h
    simp only [purgeLoop] at h
    cases h
    exact ⟨rfl, fun b hb _ => ⟨b, hb, rfl, rfl⟩⟩
  | cons x rest ih =>
    intro db d h
    simp only [purgeLoop] at h
    rcases hp : purge_block db x fuel with _ | res <;> simp only [hp] at h
    · exact Option.noConfusion h
    rcases res with e | d1
    · simp at h
    simp only at h
    obtain ⟨hmb1, hfr1⟩ := purge_block_frame hp
    obtain ⟨hmb2, hfr2⟩ := ih h
    refine ⟨hmb2.trans hmb1, ?_⟩
    intro b hb hnot
    obtain ⟨b', hb', hh', hf'⟩ := hfr1 b hb (hnot x (by simp))
    have hnot' : ∀ y ∈ rest, ¬(b'.hash = y) := by
      intro y hy
      rw [hh']
      exact hnot y (List.mem_cons_of_mem _ hy)
    obtain ⟨b'', hb'', hh'', hf''⟩ := hfr2 b' hb' hnot'
    exact ⟨b'', hb'', hh''.trans hh', hf''.trans hf'⟩


/-- A successful best-chain reassignment: the meta key moves to the new
block, and the flag update is driven by a row list whose include pointers all
lie on the new block's chain (the include side does start, at the new block)
and whose retract pointers all lie on the old best block's chain. -/
theorem set_best_chain_spec {dbp d : DB} {nb : Bytes} {fuel : Nat} (curb : BlockRow)
    (hmb : dbp.metaBest = some curb.hash)
    (hsbc : set_best_chain dbp nb fuel = some (.ok d))
    (hfresh : ∀ b ∈ dbp.blocks, ¬ b.parentHash = some nb)
    (hc : ¬ (curb.hash = nb))
    (hbinc : (findBlock dbp nb).isSome)
    (hbret : (findBlock dbp curb.hash).isSome) :
    ∃ rows : List ChangeRow,
      d = { dbp with
        blocks := dbp.blocks.map (applyChanges rows)
        metaBest := some nb }
      ∧ (∃ r ∈ rows, r.inc = some nb)
      ∧ (∀ r ∈ rows, (∀ v, r.inc = some v → Anc dbp nb v)
          ∧ (∀ v, r.ret = some v → Anc dbp curb.hash v)) := by
  unfold set_best_chain at hsbc
  simp only [hmb] at hsbc
  obtain ⟨binc, hbinc'⟩ := Option.isSome_iff_exists.mp hbinc
  obtain ⟨bret, hbret'⟩ := Option.isSome_iff_exists.mp hbret
  simp only [hbinc', hbret'] at hsbc
  rcases hrows : sbcRows dbp nb curb.hash fuel
      ⟨none, none, (binc.number : Int) + 1, (bret.number : Int) + 1⟩
      with _ | rows <;> simp only [hrows] at hsbc
  · exact Option.noConfusion hsbc
  simp only [Option.some.injEq, Except.ok.injEq] at hsbc
  refine ⟨rows, hsbc.symm, ?_, ?_⟩
  · exact sbcRows_inc_nb hfresh hc fuel _ rows hrows rfl (fun v hv => Option.noConfusion hv)
  · intro r hr
    exact sbcRows_sound dbp nb curb.hash fuel _ rows hrows
      (fun v hv => Option.noConfusion hv) (fun v hv => Option.noConfusion hv) r hr

/-- `Anc` transfers to any store whose block table is the flag-updated one:
the update touches no hash or parent pointer. -/
theorem anc_map (db db' : DB) (rows : List ChangeRow) (nb v : Bytes)
    (hbl : db'.blocks = db.blocks.map (applyChanges rows))
    (h : Anc db nb v) : Anc db' nb v := by
  induction h with
  | self => exact .self
  | step w _ ih =>
    have hcp : coalesceParent db' (some w) nb = coalesceParent db (some w) nb := by
      unfold coalesceParent findBlock
      simp only [Option.some_bind]
      rw [hbl, List.find?_map]
      have hp : ((fun b => decide (b.hash = w)) ∘ applyChanges rows)
          = fun b => decide (b.hash = w) := by
        funext b
        simp [Function.comp, (applyChanges_fields rows b).1]
      rw [hp]
      rcases hf : db.blocks.find? fun b => b.hash = w with _ | b <;> simp only [hf]
      · rfl
      · show (match (applyChanges rows b).parentHash with
          | some p => p | none => nb)
          = (match b.parentHash with | some p => p | none => nb)
        rw [(applyChanges_fields rows b).2]
    rw [← hcp]
    exact .step w ih

/-- Appending a matching row to a list with no match makes it the found one. -/
theorem find?_append_right_single {α : Type} {l : List α} {b : α} {p : α → Bool}
    (hl : l.find? p = none) (hb : p b = true) :
    (l ++ [b]).find? p = some b := by
  rw [List.find?_append, hl, List.find?_cons_of_pos _ hb]
  rfl

/-- C6 (amended): the best-chain reassignment protocol.  A successful
best-setting insert points `best` at the new block, marks it true, and marks
true only blocks on the new block's parent chain (any other true flag was
already true before); a NULL flag arises only on the old best block's chain
(a retract-side match before the include side started) or was NULL already.
A non-best insert changes no existing flag, and the pruner removes only
false-flagged blocks, keeping every other block's flag. -/
theorem C6_best_chain_reassignment (dec : Bytes → Option Header)
    (hashFn : Bytes → Bytes) (db d : DB) (hb : Bytes) (body : List Bytes)
    (fuel : Nat) :
    (insertRun dec hashFn db hb true body fuel = some (d, none) →
      (∃ b0 ∈ db.blocks, db.metaBest = some b0.hash) →
      (∀ b ∈ db.blocks, ¬ b.parentHash = some (hashFn hb)) →
      d.metaBest = some (hashFn hb)
      ∧ (∃ bN ∈ d.blocks, bN.hash = hashFn hb ∧ bN.isBestChain = some true)
      ∧ (∀ b ∈ d.blocks, b.isBestChain = some true →
          Anc d (hashFn hb) b.hash
          ∨ ∃ b0 ∈ db.blocks, b0.hash = b.hash ∧ b0.isBestChain = some true)
      ∧ (∀ b ∈ d.blocks, b.isBestChain = none →
          (∃ cur, db.metaBest = some cur ∧ Anc d cur b.hash)
          ∨ ∃ b0 ∈ db.blocks, b0.hash = b.hash ∧ b0.isBestChain = none))
    ∧ (insertRun dec hashFn db hb false body fuel = some (d, none) →
        d.metaBest = db.metaBest
        ∧ (∀ b ∈ db.blocks, ∃ b' ∈ d.blocks, b'.hash = b.hash
            ∧ b'.isBestChain = b.isBestChain)
        ∧ ∃ bN ∈ d.blocks, bN.hash = hashFn hb ∧ bN.isBestChain = some false)
    ∧ (∀ fuel2, purge_finality_orphans db fuel2 = some (.ok d) →
        (∀ b1 ∈ db.blocks, ∀ b2 ∈ db.blocks, b1.hash = b2.hash → b1 = b2) →
        d.metaBest = db.metaBest
        ∧ ∀ b ∈ db.blocks, ¬ b.isBestChain = some false →
            ∃ b' ∈ d.blocks, b'.hash = b.hash ∧ b'.isBestChain = b.isBestChain) := by
  refine ⟨?_, ?_, ?_⟩
  · -- best-setting insert
    intro hrun hcur hfresh
    obtain ⟨b0, hb0, hmb⟩ := hcur
    unfold insertRun at hrun
    rcases hins : insert_block dec hashFn db hb true body fuel
        with _ | res <;> simp only [hins] at hrun
    · exact Option.noConfusion hrun
    rcases res with e | d1
    · simp at hrun
    simp only at hrun
    cases hrun
    unfold insert_block at hins
    rcases hdec : dec hb with _ | hdr <;> simp only [hdec] at hins
    · simp at hins
    by_cases hdup : hasBlock db (hashFn hb)
    · rw [if_pos hdup] at hins; simp at hins
    rw [if_neg hdup] at hins
    by_cases hpar : ¬ hasBlock db hdr.parentHash
    · rw [if_pos hpar] at hins; simp at hins
    rw [if_neg hpar] at hins
    by_cases hbig : 2 ^ 63 ≤ hdr.number
    · rw [if_pos hbig] at hins; exact Option.noConfusion hins
    rw [if_neg hbig] at hins
    simp only [if_true] at hins
    rcases hfin : db.metaFinalized with _ | fin <;> simp only [hfin] at hins
    · simp at hins
    by_cases hle : hdr.number ≤ fin
    · rw [if_pos hle] at hins; simp at hins
    rw [if_neg hle] at hins
    rcases hsbc : set_best_chain
        { blocks := db.blocks ++ [⟨hashFn hb, some hdr.parentHash,
            some hdr.stateRoot, hdr.number, hb, some false, none⟩],
          blocksBody := db.blocksBody ++
            (body.enum.map fun p => ⟨hashFn hb, p.1, p.2⟩),
          trieNode := db.trieNode, trieNodeChild := db.trieNodeChild,
          trieNodeStorage := db.trieNodeStorage, metaBest := db.metaBest,
          metaFinalized := some fin, babeSlotsPerEpoch := db.babeSlotsPerEpoch,
          babeFinalizedEpoch := db.babeFinalizedEpoch,
          babeFinalizedNextEpoch := db.babeFinalizedNextEpoch,
          auraSlotDuration := db.auraSlotDuration, grandpaSetId := db.grandpaSetId,
          grandpaScheduledTarget := db.grandpaScheduledTarget,
          grandpaTriggered := db.grandpaTriggered,
          grandpaScheduled := db.grandpaScheduled,
          auraAuthorities := db.auraAuthorities }
        (hashFn hb) fuel with _ | res2 <;> simp only [hsbc] at hins
    · exact Option.noConfusion hins
    rcases res2 with e | d2
    · simp at hins
    simp only [Option.some.injEq, Except.ok.injEq] at hins
    subst hins
    -- facts about the freshly inserted hash
    have hfbnone : findBlock db (hashFn hb) = none :=
      opt_eq_none (by simpa [hasBlock] using hdup)
    have hcne : ¬ (b0.hash = hashFn hb) := by
      intro he
      have : (findBlock db (hashFn hb)).isSome := by
        rw [show findBlock db (hashFn hb) = db.blocks.find? fun x =>
            x.hash = hashFn hb from rfl, List.find?_isSome]
        exact ⟨b0, hb0, by simp [he]⟩
      rw [hfbnone] at this
      simp at this
    have hparne : ¬ (hdr.parentHash = hashFn hb) := by
      intro he
      rw [he] at hpar
      rw [not_not] at hpar
      unfold hasBlock at hpar
      rw [hfbnone] at hpar
      exact Bool.noConfusion hpar
    have hfresh1 : ∀ b ∈ db.blocks ++ [(⟨hashFn hb, some hdr.parentHash,
        some hdr.stateRoot, hdr.number, hb, some false, none⟩ : BlockRow)],
        ¬ b.parentHash = some (hashFn hb) := by
      intro b hbm
      rcases List.mem_append.mp hbm with hl | hr
      · exact hfresh b hl
      · rcases List.mem_singleton.mp hr with rfl
        simpa using hparne
    have hbincS : ((db.blocks ++ [(⟨hashFn hb, some hdr.parentHash,
        some hdr.stateRoot, hdr.number, hb, some false, none⟩ : BlockRow)]).find?
          fun x => x.hash = hashFn hb).isSome := by
      rw [find?_append_right_single (by simpa [findBlock] using hfbnone) (by simp)]
      rfl
    have hbretS : ((db.blocks ++ [(⟨hashFn hb, some hdr.parentHash,
        some hdr.stateRoot, hdr.number, hb, some false, none⟩ : BlockRow)]).find?
          fun x => x.hash = b0.hash).isSome := by
      refine isSome_find?_append ?_
      rw [List.find?_isSome]
      exact ⟨b0, hb0, by simp⟩
    obtain ⟨rows, hd, hexnb, hsound⟩ := set_best_chain_spec b0
      (by exact hmb) hsbc hfresh1 hcne hbincS hbretS
    subst hd
    refine ⟨rfl, ?_, ?_, ?_⟩
    · -- the new block ends marked true
      refine ⟨applyChanges rows ⟨hashFn hb, some hdr.parentHash,
          some hdr.stateRoot, hdr.number, hb, some false, none⟩,
        List.mem_map_of_mem _ (List.mem_append.mpr (Or.inr (by simp))), ?_, ?_⟩
      · exact (applyChanges_fields rows _).1
      · refine applyChanges_nb hexnb ?_
        intro r hr hre
        have := (hsound r hr).2 _ hre
        exact anc_ne (fun b hbm => by
            rcases List.mem_append.mp hbm with hl | hrr
            · exact hfresh b hl
            · rcases List.mem_singleton.mp hrr with rfl
              simpa using hparne)
          hcne _ this rfl
    · -- true flags are on the new chain or were true before
      intro b hbd hflag
      obtain ⟨b1, hb1, rfl⟩ := List.mem_map.mp hbd
      rcases applyChanges_flag_true hflag with ⟨r, hr, hri⟩ | hold
      · left
        have hanc := (hsound r hr).1 _ hri
        rw [(applyChanges_fields rows b1).1]
        exact anc_map _ _ rows _ _ rfl hanc
      · right
        rcases List.mem_append.mp hb1 with hl | hrr
        · exact ⟨b1, hl, (applyChanges_fields rows b1).1.symm, hold⟩
        · rcases List.mem_singleton.mp hrr with rfl
          exact absurd hold (by simp)
    · -- NULL flags are on the old chain or were NULL before
      intro b hbd hflag
      obtain ⟨b1, hb1, rfl⟩ := List.mem_map.mp hbd
      rcases applyChanges_flag_none hflag with ⟨r, hr, _, hrr⟩ | hold
      · left
        refine ⟨b0.hash, hmb, ?_⟩
        have hanc := (hsound r hr).2 _ hrr
        rw [(applyChanges_fields rows b1).1]
        exact anc_map _ _ rows _ _ rfl hanc
      · right
        rcases List.mem_append.mp hb1 with hl | hrr
        · exact ⟨b1, hl, (applyChanges_fields rows b1).1.symm, hold⟩
        · rcases List.mem_singleton.mp hrr with rfl
          exact absurd hold (by simp)
  · -- non-best insert
    intro hrun
    unfold insertRun at hrun
    rcases hins : insert_block dec hashFn db hb false body fuel
        with _ | res <;> simp only [hins] at hrun
    · exact Option.noConfusion hrun
    rcases res with e | d1
    · simp at hrun
    simp only at hrun
    cases hrun
    unfold insert_block at hins
    rcases hdec : dec hb with _ | hdr <;> simp only [hdec] at hins
    · simp at hins
    by_cases hdup : hasBlock db (hashFn hb)
    · rw [if_pos hdup] at hins; simp at hins
    rw [if_neg hdup] at hins
    by_cases hpar : ¬ hasBlock db hdr.parentHash
    · rw [if_pos hpar] at hins; simp at hins
    rw [if_neg hpar] at hins
    by_cases hbig : 2 ^ 63 ≤ hdr.number
    · rw [if_pos hbig] at hins; exact Option.noConfusion hins
    rw [if_neg hbig] at hins
    rw [if_neg (by simp)] at hins
    simp only [Option.some.injEq, Except.ok.injEq] at hins
    subst hins
    refine ⟨rfl, ?_, ?_⟩
    · intro b hbm
      exact ⟨b, List.mem_append.mpr (Or.inl hbm), rfl, rfl⟩
    · exact ⟨⟨hashFn hb, some hdr.parentHash, some hdr.stateRoot, hdr.number,
        hb, some false, none⟩, List.mem_append.mpr (Or.inr (by simp)), rfl, rfl⟩
  · -- the pruner
    intro fuel2 hpurge huniq
    unfold purge_finality_orphans at hpurge
    rcases hfin : db.metaFinalized with _ | fin <;> simp only [hfin] at hpurge
    · simp at hpurge
    obtain ⟨hmb, hfr⟩ := purgeLoop_frame hpurge
    refine ⟨hmb, ?_⟩
    intro b hbm hflag
    refine hfr b hbm ?_
    intro x hx hbx
    obtain ⟨bo, hbo, hbohash⟩ := List.mem_map.mp hx
    have hbof := List.mem_filter.mp hbo
    have hbop := of_decide_eq_true hbof.2
    have : b = bo := huniq b hbm bo hbof.1 (by rw [hbx, hbohash])
    rw [this] at hflag
    exact hflag hbop.2

/-- Witness for C6 at the concrete reorg and at a concrete pruner run: the
new block ends as the marked best, and the pruner keeps every non-false
block's flag. -/
theorem C6_best_chain_reassignment_witness :
    reorgOutDB.metaBest = some (wHashFn [1])
    ∧ (∃ bN ∈ reorgOutDB.blocks, bN.hash = wHashFn [1] ∧ bN.isBestChain = some true)
    ∧ purgedDB.metaBest = purgeDB.metaBest := by
  have h := (C6_best_chain_reassignment wDecode wHashFn reorgDB reorgOutDB
      [1] [] 9).1 rfl
    ⟨⟨[11], some [10], some [43], 2, [5], some true, none⟩, by decide, rfl⟩
    (by decide)
  have h2 := ((C6_best_chain_reassignment wDecode wHashFn purgeDB purgedDB
      [1] [] 9).2.2 9) rfl (by decide)
  exact ⟨h.1, h.2.1, h2.1⟩
